import Mathlib

set_option maxRecDepth 8000

/-!
Shallow embedding of the local SIL transformation utilities in
lib/SILPasses/Utils/Local.cpp (dead-instruction elimination, use-subgraph
erasure, escape analysis, call-graph edge collection, call-site rewriting,
and the purity oracle adapter over builtin/intrinsic metadata).

The IR is modelled as a module state: a list of instructions in program
order, each tagged with a numeric id and the id of its containing function,
plus a table of functions.  Operands are `Option ValueRef` (an operand that
has been dropped through `Operand::drop()` is `none`); use lists are derived
from operands, which keeps the bidirectional edge invariant by construction.
Recursive routines of the source that walk the mutable graph are given an
explicit fuel parameter; the C++ relies on acyclicity of def-use chains for
termination, and theorems about those routines carry the corresponding
acyclicity (rank) and sufficient-fuel hypotheses.
-/

/-- A SIL value: the (single) result of an instruction, or an entry-block
argument of a function (`SILArgument`). -/
inductive ValueRef where
  | inst (id : Nat)
  | arg (f : Nat) (n : Nat)
deriving DecidableEq

/-- Metadata of a `BuiltinFunctionRefInst`, as consulted by the purity
oracle adapter: `getBuiltinInfo()` (named swift builtin) and
`getIntrinsicInfo()` (llvm intrinsic) with the attribute bits the source
reads. -/
structure BuiltinRef where
  /-- `BInfo.ID != BuiltinValueKind::None` -/
  builtinIsNamed : Bool
  /-- `BInfo.isReadNone()` -/
  builtinReadNone : Bool
  /-- `IInfo.ID != llvm::Intrinsic::not_intrinsic` -/
  isIntrinsic : Bool
  /-- `IInfo.hasAttribute(llvm::Attribute::ReadNone)` -/
  attrReadNone : Bool
  /-- `IInfo.hasAttribute(llvm::Attribute::ReadOnly)` -/
  attrReadOnly : Bool
  /-- `IInfo.hasAttribute(llvm::Attribute::NoUnwind)` -/
  attrNoUnwind : Bool
deriving DecidableEq

/-- Instruction kinds, covering the categories the source distinguishes.
`applyInst` carries the data of `getSubstCalleeType()` that the source
reads: `hasSubstitutions()`, `isPolymorphic()`, the `isIndirect()` flag of
each interface parameter, and `isTransparent()`.  All remaining kinds are
abstracted by `other` with their `mayHaveSideEffects()` bit. -/
inductive InstKind where
  | applyInst (hasSubstitutions : Bool) (polymorphic : Bool)
      (params : List Bool) (transparent : Bool)
  | partialApplyInst (params : List Bool)
  | functionRef (f : Nat)
  | builtinFunctionRef (b : BuiltinRef)
  | copyAddr
  | load
  | protocolMethod
  | debugValue
  | debugValueAddr
  | store
  | assign
  | structElementAddr
  | tupleElementAddr
  | projectExistential
  | openExistential
  | markUninitialized
  | addressToPointer
  | pointerToAddress
  | condFail
  | integerLiteral (v : Int)
  | term
  | other (sideEffects : Bool)
deriving DecidableEq

/-- An instruction: kind, ordered operand slots (a dropped operand is
`none`), and its source location. For a `store`/`assign`, operand 0 is the
source and operand 1 the destination; for calls, operand 0 is the callee
and the rest are arguments. -/
structure SILInstruction where
  kind : InstKind
  operands : List (Option ValueRef)
  loc : Nat
deriving DecidableEq

/-- A function, as far as the source queries it: whether it has no body
(`F->empty()`), and its callee-type data used when building a call to it. -/
structure SILFunction where
  bodyIsEmpty : Bool
  polymorphic : Bool
  params : List Bool
deriving DecidableEq

/-- The module: instructions in program order, tagged (id, containing
function, instruction); the function table; and a fresh-id counter for the
instruction builder. -/
structure SILModule where
  insts : List (Nat × Nat × SILInstruction)
  funcs : List (Nat × SILFunction)
  nextId : Nat
deriving DecidableEq

/-- Find the entry of an instruction id: its containing function and body. -/
def findEntry : List (Nat × Nat × SILInstruction) → Nat → Option (Nat × SILInstruction)
  | [], _ => none
  | e :: rest, i => if e.1 = i then some (e.2.1, e.2.2) else findEntry rest i

/-- Look up an instruction by id. -/
def lookupInst (S : SILModule) (i : Nat) : Option SILInstruction :=
  (findEntry S.insts i).map (fun p => p.2)

def findFunc : List (Nat × SILFunction) → Nat → Option SILFunction
  | [], _ => none
  | e :: rest, f => if e.1 = f then some e.2 else findFunc rest f

def lookupFunc (S : SILModule) (f : Nat) : Option SILFunction := findFunc S.funcs f

/-- The ids of the live instructions. -/
def idsIn (l : List (Nat × Nat × SILInstruction)) : List Nat := l.map (fun e => e.1)

/-- Use entries of value `v` inside one instruction: (user id, user
instruction, operand index), scanning operand slots from index `k`. -/
def instUsesAux (uid : Nat) (ins : SILInstruction) (v : ValueRef) :
    List (Option ValueRef) → Nat → List (Nat × SILInstruction × Nat)
  | [], _ => []
  | op :: rest, k =>
    if op = some v then (uid, ins, k) :: instUsesAux uid ins v rest (k + 1)
    else instUsesAux uid ins v rest (k + 1)

/-- All use entries of `v` in an instruction list, in program order. -/
def usesIn (v : ValueRef) : List (Nat × Nat × SILInstruction) → List (Nat × SILInstruction × Nat)
  | [] => []
  | e :: rest => instUsesAux e.1 e.2.2 v e.2.2.operands 0 ++ usesIn v rest

/-- The use list of value `v`: derived from the operand lists, so the two
views of the def-use edge set agree by construction. -/
def usesOf (S : SILModule) (v : ValueRef) : List (Nat × SILInstruction × Nat) :=
  usesIn v S.insts

/-- `swift::isSideEffectFree` on a `BuiltinFunctionRefInst`.  `none` models
the `llvm_unreachable("All cases are covered.")` fatal exit (neither a named
builtin nor a recognized llvm intrinsic). -/
def isSideEffectFree (fr : BuiltinRef) : Option Bool :=
  if fr.builtinIsNamed then some fr.builtinReadNone
  else if fr.isIntrinsic then
    some ((fr.attrReadNone || fr.attrReadOnly) && fr.attrNoUnwind)
  else none

/-- `swift::isReadNone` on a `BuiltinFunctionRefInst`; `none` models the
`llvm_unreachable` fatal exit. -/
def isReadNone (fr : BuiltinRef) : Option Bool :=
  if fr.builtinIsNamed then some fr.builtinReadNone
  else if fr.isIntrinsic then some (fr.attrReadNone && fr.attrNoUnwind)
  else none

/-- Modelled metadata: `SILInstruction::mayHaveSideEffects()` per kind (the
instruction taxonomy itself is an external collaborator of the source). -/
def mayHaveSideEffects : InstKind → Bool
  | .applyInst _ _ _ _ => true
  | .partialApplyInst _ => true
  | .store => true
  | .assign => true
  | .copyAddr => true
  | .condFail => true
  | .term => true
  | .other se => se
  | _ => false

def isTermKind : InstKind → Bool
  | .term => true
  | _ => false

def isMarkUninitializedKind : InstKind → Bool
  | .markUninitialized => true
  | _ => false

/-- The `ApplyInst`-of-builtin special case inside
`isInstructionTriviallyDead`: if `I` is an apply whose callee is defined by
a `BuiltinFunctionRefInst`, the predicate returns `isSideEffectFree` of
that ref (`some b`); otherwise this check does not fire (`none`).  The
`llvm_unreachable` of the oracle is collapsed to `false` here, as the
theorems never evaluate it on an unclassified builtin. -/
def applyBuiltinCheck (S : SILModule) (i : SILInstruction) : Option Bool :=
  match i.kind with
  | .applyInst _ _ _ _ =>
    match i.operands.getD 0 none with
    | some (.inst cid) =>
      match lookupInst S cid with
      | some ci =>
        match ci.kind with
        | .builtinFunctionRef b => some ((isSideEffectFree b).getD false)
        | _ => none
      | none => none
    | _ => none
  | _ => none

/-- The cond_fail special case: a `CondFailInst` whose operand is an
`IntegerLiteralInst` with value zero. -/
def condFailZeroCheck (S : SILModule) (i : SILInstruction) : Bool :=
  match i.kind with
  | .condFail =>
    match i.operands.getD 0 none with
    | some (.inst cid) =>
      match lookupInst S cid with
      | some ci =>
        match ci.kind with
        | .integerLiteral v => v = 0
        | _ => false
      | none => false
    | _ => false
  | _ => false

/-- `swift::isInstructionTriviallyDead`, the fast local deadness check:
false on any remaining use and on terminators; builtin applies answer via
the purity oracle; provably-unfired cond_fails are dead;
`mark_uninitialized` is never dead; otherwise dead iff free of side
effects.  An id with no live instruction yields `false`. -/
def isInstructionTriviallyDead (S : SILModule) (id : Nat) : Bool :=
  match lookupInst S id with
  | none => false
  | some i =>
    if ¬ (usesOf S (.inst id)).isEmpty then false
    else if isTermKind i.kind then false
    else
      match applyBuiltinCheck S i with
      | some b => b
      | none =>
        if condFailZeroCheck S i then true
        else if isMarkUninitializedKind i.kind then false
        else ! mayHaveSideEffects i.kind

/-- Remove every entry with the given id from the instruction list
(`SILInstruction::eraseFromParent`, at the list level). -/
def removeEntry : List (Nat × Nat × SILInstruction) → Nat → List (Nat × Nat × SILInstruction)
  | [], _ => []
  | e :: rest, i => if e.1 = i then removeEntry rest i else e :: removeEntry rest i

/-- Drop operand slot `k` of instruction `i` (`Operand::drop()`): the slot
becomes `none`, severing the use edge.  Only the first entry with that id
is touched. -/
def setOpNone : List (Nat × Nat × SILInstruction) → Nat → Nat → List (Nat × Nat × SILInstruction)
  | [], _, _ => []
  | e :: rest, i, k =>
    if e.1 = i then
      (e.1, e.2.1, { e.2.2 with operands := e.2.2.operands.set k none }) :: rest
    else e :: setOpNone rest i k

def eraseInst (S : SILModule) (i : Nat) : SILModule := { S with insts := removeEntry S.insts i }

def dropOp (S : SILModule) (i k : Nat) : SILModule := { S with insts := setOpNone S.insts i k }

/-- One dead instruction's share of a deletion round: sever each of its
operand edges in order and collect operands that thereby became trivially
dead (re-checked against the mutated state) for the next round, skipping
members of the current round's dead set (`DeadInsts.count`) and duplicates
(`NextInsts` is a set). -/
def severStep (dead : List Nat) (iid : Nat) (a : SILModule × List Nat) (k : Nat) :
    Option ValueRef → SILModule × List Nat
  | none => a
  | some (.inst opI) =>
    if opI ∈ dead then (dropOp a.1 iid k, a.2)
    else if isInstructionTriviallyDead (dropOp a.1 iid k) opI then
      if opI ∈ a.2 then (dropOp a.1 iid k, a.2)
      else (dropOp a.1 iid k, a.2 ++ [opI])
    else (dropOp a.1 iid k, a.2)
  | some (.arg _ _) => (dropOp a.1 iid k, a.2)

def dropOpsOf (dead : List Nat) (acc : SILModule × List Nat) (iid : Nat) :
    SILModule × List Nat :=
  match findEntry acc.1.insts iid with
  | none => acc
  | some (_, inst) =>
    (List.range inst.operands.length).foldl
      (fun a k => severStep dead iid a k (inst.operands.getD k none))
      acc

/-- Phase one of a round of `recursivelyDeleteTriviallyDeadInstructions`:
sever all operand edges of the round's dead set, collecting the next
round's candidates. -/
def processRound (S : SILModule) (dead : List Nat) : SILModule × List Nat :=
  dead.foldl (dropOpsOf dead) (S, [])

/-- Phase two of a round: erase every member of the dead set from its
block. -/
def eraseAll (S : SILModule) (dead : List Nat) : SILModule :=
  dead.foldl (fun s d => eraseInst s d) S

/-- The worklist loop of `recursivelyDeleteTriviallyDeadInstructions`:
repeat sever-then-erase rounds until the pending set is empty.  `fuel`
bounds the number of rounds; the wrapper always supplies enough, since
every round that touches a live instruction shrinks the module. -/
def deleteRounds : Nat → SILModule → List Nat → SILModule
  | 0, S, _ => S
  | n + 1, S, dead =>
    match dead with
    | [] => S
    | _ =>
      let p := processRound S dead
      deleteRounds n (eraseAll p.1 dead) p.2

/-- `swift::recursivelyDeleteTriviallyDeadInstructions` over a starting
list: seed with the members that are forced or trivially dead, run the
rounds, and — exactly as the source does on line 138 — return `true`
unconditionally. -/
def recursivelyDeleteTriviallyDeadInstructions (S : SILModule) (ia : List Nat)
    (force : Bool) : SILModule × Bool :=
  let dead := ia.filter (fun i => force || isInstructionTriviallyDead S i)
  (deleteRounds (S.insts.length + 2) S dead, true)

/-- `Op.get().getDef()` cleanup step of `eraseUsesOfInstruction` for one
operand slot of a user being erased: if the slot holds another
instruction's result (and not the original target `targetId`), sever the
edge and attempt a normal (non-forced) recursive deletion on it.  The
`Force` default of the single-instruction overload is taken from the
header's declaration as described by the spec ("attempt a normal
(non-forced) recursive dead-instruction deletion"). -/
def cleanOperandCore (targetId : Nat) (S : SILModule) (uid : Nat) (k : Nat) :
    Option ValueRef → SILModule
  | some (.inst opI) =>
    if opI = targetId then S
    else (recursivelyDeleteTriviallyDeadInstructions (dropOp S uid k) [opI] false).1
  | _ => S

def cleanOperand (targetId : Nat) (S : SILModule) (uid : Nat) (k : Nat) : SILModule :=
  match findEntry S.insts uid with
  | none => S
  | some (_, u) => cleanOperandCore targetId S uid k (u.operands.getD k none)

/-- Walk the operand list of a user being erased, cleaning each slot. -/
def processOps (targetId : Nat) (S : SILModule) (uid : Nat) : SILModule :=
  match findEntry S.insts uid with
  | none => S
  | some (_, u) =>
    (List.range u.operands.length).foldl (fun s k => cleanOperand targetId s uid k) S

/-- `swift::eraseUsesOfInstruction`: for each user of the target, first
recursively zap that user's own users, then clean up its operands (never
re-entering the target itself), then erase the user.  The target itself is
not erased.  `fuel` bounds the recursion; the C++ relies on acyclicity of
the use graph. -/
def eraseUsesOfInstruction : Nat → SILModule → Nat → SILModule
  | 0, S, _ => S
  | fuel + 1, S, inst =>
    match usesOf S (.inst inst) with
    | [] => S
    | u :: _ =>
      let S1 := eraseUsesOfInstruction fuel S u.1
      let S2 := processOps inst S1 u.1
      let S3 := eraseInst S2 u.1
      eraseUsesOfInstruction fuel S3 inst

/-- The caller→callee edges recorded by `swift::bottomUpCallGraphOrder`:
one edge per `FunctionRefInst` in the module, from the enclosing function
to the referenced function.  (The `CallGraphSorter` consuming the edges is
an external collaborator.) -/
def bottomUpCallGraphOrderEdges (S : SILModule) : List (Nat × Nat) :=
  S.insts.filterMap fun e =>
    match e.2.2.kind with
    | .functionRef g => some (e.2.1, g)
    | _ => none

/-- Insert fresh entries immediately before the entry with id `anchor`
(the `SILBuilder` insertion point at the old apply). -/
def insertBeforeEntry : List (Nat × Nat × SILInstruction) → Nat →
    List (Nat × Nat × SILInstruction) → List (Nat × Nat × SILInstruction)
  | [], _, newEs => newEs
  | e :: rest, anchor, newEs =>
    if e.1 = anchor then newEs ++ e :: rest
    else e :: insertBeforeEntry rest anchor newEs

/-- `SILValue::replaceAllUsesWith`: every operand slot holding `oldV` now
holds `newV`. -/
def rauw (S : SILModule) (oldV newV : ValueRef) : SILModule :=
  { S with
    insts := S.insts.map fun e =>
      (e.1, e.2.1,
        { e.2.2 with
          operands := e.2.2.operands.map fun o =>
            if o = some oldV then some newV else o }) }

def defaultSILFunction : SILFunction :=
  { bodyIsEmpty := true, polymorphic := false, params := [] }

/-- `swift::replaceWithSpecializedFunction`: build a `function_ref` to the
specialized function and a fresh apply at the old apply's location with the
old argument list, an empty substitution list and the old transparency
flag; redirect all uses of the old apply to the new one; then force-delete
the old apply together with its now-dead operands. -/
def replaceWithSpecializedFunction (S : SILModule) (aiId : Nat) (newF : Nat) : SILModule :=
  match findEntry S.insts aiId with
  | none => S
  | some (parentF, ai) =>
    match ai.kind with
    | .applyInst _ _ _ tr =>
      let args := ai.operands.drop 1
      let friId := S.nextId
      let naiId := S.nextId + 1
      let fn := (lookupFunc S newF).getD defaultSILFunction
      let fri : SILInstruction := { kind := .functionRef newF, operands := [], loc := ai.loc }
      let nai : SILInstruction :=
        { kind := .applyInst false fn.polymorphic fn.params tr,
          operands := some (.inst friId) :: args, loc := ai.loc }
      let S1 : SILModule :=
        { insts := insertBeforeEntry S.insts aiId [(friId, parentF, fri), (naiId, parentF, nai)],
          funcs := S.funcs, nextId := S.nextId + 2 }
      let S2 := rauw S1 (.inst aiId) (.inst naiId)
      (recursivelyDeleteTriviallyDeadInstructions S2 [aiId] true).1
    | _ => S

/-- The kinds grouped by `canValueEscape` as address projections: escape is
decided by recursing on the projection's own result. -/
def isProjectionKind : InstKind → Bool
  | .structElementAddr => true
  | .tupleElementAddr => true
  | .projectExistential => true
  | .openExistential => true
  | .markUninitialized => true
  | .addressToPointer => true
  | .pointerToAddress => true
  | _ => false

/-- `useCaptured`: uses that never capture the address (copies, loads,
dynamic dispatch, debug info), and stores/assigns whose destination is the
value itself (storing through the address). -/
def useCaptured (user : SILInstruction) (v : ValueRef) : Bool :=
  match user.kind with
  | .copyAddr => false
  | .load => false
  | .protocolMethod => false
  | .debugValue => false
  | .debugValueAddr => false
  | .store => if user.operands.getD 1 none = some v then false else true
  | .assign => if user.operands.getD 1 none = some v then false else true
  | _ => true

/-- Resolve the callee operand of a call to a referenced function id, when
the callee is defined by a `FunctionRefInst` (`isa<FunctionRefInst>` plus
`getReferencedFunction`). -/
def directCallee (S : SILModule) (user : SILInstruction) : Option Nat :=
  match user.operands.getD 0 none with
  | some (.inst cid) =>
    match lookupInst S cid with
    | some ci =>
      match ci.kind with
      | .functionRef f => some f
      | _ => none
    | none => none
  | _ => none

/-- `F->empty()`: the referenced function has no known body. -/
def funcBodyIsEmpty (S : SILModule) (f : Nat) : Bool :=
  match lookupFunc S f with
  | some fn => fn.bodyIsEmpty
  | none => true

/-- Body of `operandEscapesApply`, abstracted over the recursive escape
check so it can be shared between the fuelled recursion and the standalone
definition: generic calls, unresolved callees and bodiless callees bail out
as escaping; otherwise the source returns the negation of the recursive
check on the callee's formal parameter at the operand's index minus one,
with `examineApply = false`. -/
def operandEscapesApplyAux (S : SILModule) (recEscape : ValueRef → Bool → Bool)
    (user : SILInstruction) (opIdx : Nat) : Bool :=
  match user.kind with
  | .applyInst hs poly _ _ =>
    if hs || poly then true
    else
      match directCallee S user with
      | none => true
      | some f =>
        if funcBodyIsEmpty S f then true
        else ! recEscape (.arg f (opIdx - 1)) false
  | _ => true

/-- The per-use body of the loop of `canValueEscape`, abstracted over the
recursive escape check.  Returns `true` exactly when this use makes the
value escape (the loop is a short-circuit OR over the uses). -/
def escapingUseAux (S : SILModule) (recEscape : ValueRef → Bool → Bool)
    (uid : Nat) (user : SILInstruction) (opIdx : Nat) (v : ValueRef) (ex : Bool) : Bool :=
  if useCaptured user v = false then false
  else if isProjectionKind user.kind then recEscape (.inst uid) ex
  else
    match user.kind with
    | .applyInst _ _ params _ =>
      if opIdx = 0 then false
      else if params.getD (opIdx - 1) false then false
      else if ex && ! operandEscapesApplyAux S recEscape user opIdx then false
      else true
    | .partialApplyInst params =>
      let nargs := user.operands.length - 1
      let sliced := params.drop (params.length - nargs)
      if sliced.getD (opIdx - 1) false then recEscape (.inst uid) ex
      else true
    | _ => true

/-- `swift::canValueEscape`: scan every use of the value; non-capturing
uses are skipped, projections recurse on their result, calls follow the
indirect-parameter and (optionally) drill-down policy, partial applies
recurse on the closure when the capture is indirect, and anything else is
conservatively escaping.  `fuel` bounds the recursion depth; exhausted fuel
answers conservatively `true`. -/
def canValueEscape (S : SILModule) : Nat → ValueRef → Bool → Bool
  | 0, _, _ => true
  | fuel + 1, v, ex =>
    (usesOf S v).any fun u =>
      escapingUseAux S (fun v2 ex2 => canValueEscape S fuel v2 ex2) u.1 u.2.1 u.2.2 v ex

/-- `operandEscapesApply` with the recursive check instantiated at a given
fuel. -/
def operandEscapesApply (S : SILModule) (fuel : Nat) (user : SILInstruction)
    (opIdx : Nat) : Bool :=
  operandEscapesApplyAux S (fun v2 ex2 => canValueEscape S fuel v2 ex2) user opIdx

/-- One use's escape verdict with the recursive check instantiated at a
given fuel. -/
def escapingUse (S : SILModule) (fuel : Nat) (uid : Nat) (user : SILInstruction)
    (opIdx : Nat) (v : ValueRef) (ex : Bool) : Bool :=
  escapingUseAux S (fun v2 ex2 => canValueEscape S fuel v2 ex2) uid user opIdx v ex

def isApplyKind : InstKind → Bool
  | .applyInst _ _ _ _ => true
  | _ => false

/-- Decidable no-dangling-edges invariant: every live operand slot that
holds an instruction result refers to a live instruction. -/
def noDangling (S : SILModule) : Bool :=
  S.insts.all fun e =>
    e.2.2.operands.all fun op =>
      match op with
      | some (.inst k) => decide (k ∈ idsIn S.insts)
      | _ => true

/-- Decidable acyclicity certificate for the def-use graph: a rank
function under which every use strictly increases.  Well-formed SIL has
such a ranking, because a definition dominates (precedes) its uses. -/
def rankOk (S : SILModule) (rank : Nat → Nat) : Bool :=
  S.insts.all fun e =>
    e.2.2.operands.all fun op =>
      match op with
      | some (.inst k) => decide (rank k < rank e.1)
      | _ => true

/-- All live ranks below a bound. -/
def rankBound (S : SILModule) (rank : Nat → Nat) (N : Nat) : Bool :=
  S.insts.all fun e => decide (rank e.1 < N)

/-- `j` (transitively) uses the value of instruction `root` in `S`:
either directly as an operand, or through a chain of live users. -/
inductive TransUses (S : SILModule) (root : Nat) : Nat → Prop where
  | direct (j f i : _) : (j, f, i) ∈ S.insts → some (.inst root) ∈ i.operands →
      TransUses S root j
  | step (k j f i : _) : TransUses S root k → (j, f, i) ∈ S.insts →
      some (.inst k) ∈ i.operands → TransUses S root j

/-- Instruction `j` is live and holds, in some operand slot, the result of
instruction `k` (a def-use edge read through `findEntry`). -/
def HasOp (l : List (Nat × Nat × SILInstruction)) (j k : Nat) : Prop :=
  ∃ f i m, findEntry l j = some (f, i) ∧ i.operands.getD m none = some (.inst k)

/-- Proposition form of `noDangling`: every def-use edge ends at a live
instruction. -/
def NoDanglingP (l : List (Nat × Nat × SILInstruction)) : Prop :=
  ∀ j k, HasOp l j k → k ∈ idsIn l

/-- Proposition form of `rankOk`: every def-use edge strictly increases the
rank (an acyclicity certificate). -/
def RankOkP (l : List (Nat × Nat × SILInstruction)) (rank : Nat → Nat) : Prop :=
  ∀ j k, HasOp l j k → rank k < rank j

/-- Invariant carried through the sever phase of one round of the deletion
worklist, relative to the round-start state `S0` and the round's dead set:
entries outside the dead set are untouched; the live id set is unchanged;
no dangling edges appear; use-list emptiness is preserved; and every
next-round candidate is use-free and was reached through an operand edge
of a dead instruction as recorded at round start. -/
def RoundInv (S0 : SILModule) (dead : List Nat) (a : SILModule × List Nat) : Prop :=
  (∀ j, j ∉ dead → findEntry a.1.insts j = findEntry S0.insts j) ∧
  (idsIn a.1.insts = idsIn S0.insts) ∧
  (NoDanglingP S0.insts → NoDanglingP a.1.insts) ∧
  (∀ v, usesIn v S0.insts = [] → usesIn v a.1.insts = []) ∧
  a.2.Nodup ∧
  (∀ x ∈ a.2, usesIn (ValueRef.inst x) a.1.insts = [] ∧
    ∃ j f ins k, j ∈ dead ∧ findEntry S0.insts j = some (f, ins) ∧
      ins.operands.getD k none = some (ValueRef.inst x))

/-- Counterexample state for C1: caller argument `arg 0 0` passed as the
sole, indirectly-conventioned argument of a direct apply of function 1,
whose body is known, non-generic and non-empty; inside the callee the
formal parameter `arg 1 0` has an unclassified (escaping) use. -/
def C1S : SILModule :=
  { insts :=
      [ (10, 0, { kind := .functionRef 1, operands := [], loc := 0 }),
        (11, 0, { kind := .applyInst false false [true] false,
                  operands := [some (.inst 10), some (.arg 0 0)], loc := 0 }),
        (20, 1, { kind := .other true, operands := [some (.arg 1 0)], loc := 0 }) ],
    funcs :=
      [ (0, { bodyIsEmpty := false, polymorphic := false, params := [] }),
        (1, { bodyIsEmpty := false, polymorphic := false, params := [true] }) ],
    nextId := 100 }

/-- Counterexample state for C2: caller argument `arg 0 0` passed as an
indirectly-conventioned argument of an apply that has generic
substitutions (`hasSubstitutions = true`). -/
def C2S : SILModule :=
  { insts :=
      [ (10, 0, { kind := .functionRef 1, operands := [], loc := 0 }),
        (11, 0, { kind := .applyInst true false [true] false,
                  operands := [some (.inst 10), some (.arg 0 0)], loc := 0 }) ],
    funcs := [ (1, { bodyIsEmpty := false, polymorphic := false, params := [true] }) ],
    nextId := 100 }

/-- State for C3: instruction 0 is a literal used by instruction 1, so
nothing in it is trivially dead and no deletion can happen. -/
def C3S : SILModule :=
  { insts :=
      [ (0, 0, { kind := .integerLiteral 5, operands := [], loc := 0 }),
        (1, 0, { kind := .other true, operands := [some (.inst 0)], loc := 0 }) ],
    funcs := [], nextId := 100 }

/-- Witness state for C4: a lone terminator. -/
def C4W : SILModule :=
  { insts := [ (0, 0, { kind := .term, operands := [], loc := 0 }) ],
    funcs := [], nextId := 100 }

/-- Counterexample state for C5: instruction 1 uses instruction 0. -/
def C5S : SILModule :=
  { insts :=
      [ (0, 0, { kind := .other true, operands := [], loc := 0 }),
        (1, 0, { kind := .other true, operands := [some (.inst 0)], loc := 0 }) ],
    funcs := [], nextId := 100 }

/-- Witness state for C5: a two-level chain of users above instruction 0. -/
def C5W : SILModule :=
  { insts :=
      [ (0, 0, { kind := .other true, operands := [], loc := 0 }),
        (1, 0, { kind := .other true, operands := [some (.inst 0)], loc := 0 }),
        (2, 0, { kind := .other true, operands := [some (.inst 1)], loc := 0 }) ],
    funcs := [], nextId := 100 }

/-- Counterexample state for C6: function 7 contains a `function_ref` to
function 9 that is not the callee operand of any call site (there is no
apply at all). -/
def C6S : SILModule :=
  { insts := [ (0, 7, { kind := .functionRef 9, operands := [], loc := 0 }) ],
    funcs := [], nextId := 100 }

/-- Template state for C7: `c0 = apply(function_ref oldF, a, b)` (id 1,
callee ref id 0) whose only use is the later instruction `use(c0)` (id 2),
all in function 0.  Functions: 0 is the enclosing function, 1 is `oldF`,
2 is `newF`. -/
def C7state (a b : ValueRef) (hs poly : Bool) (params : List Bool) (tr : Bool)
    (l0 lc lu : Nat) (fnF fnOld fnNew : SILFunction) : SILModule :=
  { insts :=
      [ (0, 0, { kind := .functionRef 1, operands := [], loc := l0 }),
        (1, 0, { kind := .applyInst hs poly params tr,
                 operands := [some (.inst 0), some a, some b], loc := lc }),
        (2, 0, { kind := .other true, operands := [some (.inst 1)], loc := lu }) ],
    funcs := [ (0, fnF), (1, fnOld), (2, fnNew) ],
    nextId := 10 }

/-- Witness state for C9: the only use of `arg 0 0` is a
`struct_element_addr` projection (id 5), whose own result is then loaded
(a non-capturing use). -/
def C9W : SILModule :=
  { insts :=
      [ (5, 0, { kind := .structElementAddr, operands := [some (.arg 0 0)], loc := 0 }),
        (6, 0, { kind := .load, operands := [some (.inst 5)], loc := 0 }) ],
    funcs := [], nextId := 100 }

/-- Witness state for C1 (amended): sole use of `arg 0 0` is an
indirectly-conventioned argument of a direct, non-generic apply of the
known-bodied function 1. -/
def C1W : SILModule := C1S

/-- Witness state for C2 (amended): sole use of `arg 0 0` is a
directly-conventioned (non-indirect) argument of an apply with generic
substitutions. -/
def C2W : SILModule :=
  { insts :=
      [ (10, 0, { kind := .functionRef 1, operands := [], loc := 0 }),
        (11, 0, { kind := .applyInst true false [false] false,
                  operands := [some (.inst 10), some (.arg 0 0)], loc := 0 }) ],
    funcs := [ (1, { bodyIsEmpty := false, polymorphic := false, params := [false] }) ],
    nextId := 100 }

theorem canValueEscape_succ (S : SILModule) (fuel : Nat) (v : ValueRef) (ex : Bool) :
    canValueEscape S (fuel + 1) v ex =
      (usesOf S v).any (fun u => escapingUse S fuel u.1 u.2.1 u.2.2 v ex) := rfl

/-- C8: on a foreign intrinsic (not a named builtin), `isSideEffectFree`
answers `true` exactly when the attributes include no-throw in addition to
read-none or read-only; and when the operation is neither a named builtin
nor a recognized intrinsic, both oracle queries hit the fatal
`llvm_unreachable` (modelled as `none`) instead of returning a default. -/
theorem isSideEffectFree_intrinsic_iff_and_fatal (fr : BuiltinRef)
    (hnamed : fr.builtinIsNamed = false) :
    (fr.isIntrinsic = true →
      (isSideEffectFree fr = some true ↔
        ((fr.attrReadNone || fr.attrReadOnly) && fr.attrNoUnwind) = true)) ∧
    (fr.isIntrinsic = false → isSideEffectFree fr = none ∧ isReadNone fr = none) := by
  constructor <;> intro h <;> simp [isSideEffectFree, isReadNone, hnamed, h]

/-- Witness for C8 at two concrete builtin references: a read-none,
no-unwind intrinsic is side-effect free, and an unclassified operation
sends both queries to the fatal exit. -/
theorem isSideEffectFree_intrinsic_iff_and_fatal_witness :
    ((isSideEffectFree ⟨false, false, true, true, false, true⟩ = some true ↔
        ((true || false) && true) = true) ∧
      isSideEffectFree ⟨false, false, false, false, false, false⟩ = none ∧
      isReadNone ⟨false, false, false, false, false, false⟩ = none) :=
  ⟨(isSideEffectFree_intrinsic_iff_and_fatal ⟨false, false, true, true, false, true⟩ rfl).1 rfl,
   (isSideEffectFree_intrinsic_iff_and_fatal ⟨false, false, false, false, false, false⟩ rfl).2 rfl⟩

/-- C10: on a named builtin (builtin kind is not `None`), the two oracle
queries coincide: both answer with the builtin's read-none fact. -/
theorem isSideEffectFree_eq_isReadNone_on_named (fr : BuiltinRef)
    (h : fr.builtinIsNamed = true) :
    isSideEffectFree fr = isReadNone fr ∧
      isSideEffectFree fr = some fr.builtinReadNone := by
  simp [isSideEffectFree, isReadNone, h]

/-- Witness for C10 at a concrete named builtin. -/
theorem isSideEffectFree_eq_isReadNone_on_named_witness :
    isSideEffectFree ⟨true, true, false, false, false, false⟩ =
        isReadNone ⟨true, true, false, false, false, false⟩ ∧
      isSideEffectFree ⟨true, true, false, false, false, false⟩ = some true :=
  isSideEffectFree_eq_isReadNone_on_named ⟨true, true, false, false, false, false⟩ rfl

/-- C4: the triviality predicate returns false on any instruction with a
remaining use, on any terminator (regardless of side-effect metadata), and
on any `mark_uninitialized` (in particular one with zero uses). -/
theorem isInstructionTriviallyDead_sound (S : SILModule) (id : Nat) (i : SILInstruction)
    (h : lookupInst S id = some i) :
    (usesOf S (.inst id) ≠ [] → isInstructionTriviallyDead S id = false) ∧
    (i.kind = .term → isInstructionTriviallyDead S id = false) ∧
    (i.kind = .markUninitialized → isInstructionTriviallyDead S id = false) := by
  unfold isInstructionTriviallyDead
  rw [h]
  refine ⟨?_, ?_, ?_⟩
  · intro hu
    simp [List.isEmpty_iff, hu]
  · intro hk
    by_cases he : (usesOf S (.inst id)).isEmpty <;>
      simp [he, hk, isTermKind]
  · intro hk
    by_cases he : (usesOf S (.inst id)).isEmpty <;>
      simp [he, hk, isTermKind, applyBuiltinCheck, condFailZeroCheck,
        isMarkUninitializedKind]

/-- Witness for C4: a concrete lone terminator is not trivially dead. -/
theorem isInstructionTriviallyDead_sound_witness :
    isInstructionTriviallyDead C4W 0 = false :=
  (isInstructionTriviallyDead_sound C4W 0
      { kind := .term, operands := [], loc := 0 } rfl).2.1 rfl

/-- C3 (code bug): `recursivelyDeleteTriviallyDeadInstructions` returns
`true` unconditionally (source line 138), even on an empty starting set and
on a set whose only member has a use and hence is not deleted; in both
cases the module is returned unchanged, contradicting the claim (and the
function's own doc comment) that the result tells whether anything was
deleted. -/
theorem recursivelyDelete_returns_true_without_deleting :
    recursivelyDeleteTriviallyDeadInstructions C3S [] false = (C3S, true) ∧
    recursivelyDeleteTriviallyDeadInstructions C3S [0] false = (C3S, true) := by
  exact ⟨by decide, by decide⟩

/-- Counterexample for C6: function 7 holds a `function_ref` to function 9
although the module contains no call site at all, yet the edge (7, 9) is
recorded — refuting that edges are recorded exactly for function
references in callee position of a call site. -/
theorem callGraphEdge_without_callSite :
    bottomUpCallGraphOrderEdges C6S = [(7, 9)] ∧
    C6S.insts.all (fun e => ! isApplyKind e.2.2.kind) = true := by
  exact ⟨by decide, by decide⟩

/-- C6 (amended): `bottomUpCallGraphOrder` records an edge (F, G) exactly
when some `function_ref` instruction referencing G occurs in F — whether or
not that reference is the callee operand of any call site. -/
theorem bottomUpCallGraphOrderEdges_mem (S : SILModule) (F G : Nat) :
    (F, G) ∈ bottomUpCallGraphOrderEdges S ↔
      ∃ id i, (id, F, i) ∈ S.insts ∧ i.kind = .functionRef G := by
  unfold bottomUpCallGraphOrderEdges
  rw [List.mem_filterMap]
  constructor
  · rintro ⟨⟨id, f, i⟩, hmem, hf⟩
    cases hk : i.kind <;> simp [hk] at hf
    obtain ⟨hF, hG⟩ := hf
    subst hF
    exact ⟨id, i, hmem, by rw [hk, hG]⟩
  · rintro ⟨id, i, hmem, hk⟩
    exact ⟨(id, F, i), hmem, by simp [hk]⟩

/-- C9: projection transparency — when the only use of `v` is an
address-projection instruction (such as `struct_element_addr` or
`tuple_element_addr`), the escape verdict on `v` is exactly the escape
verdict on the projection's own result, for either value of
`examineApply`; the projection use contributes no independent escape.
(The outer query spends one unit of recursion fuel reaching the
projection.) -/
theorem canValueEscape_projection_transparent (S : SILModule) (fuel : Nat) (v : ValueRef)
    (uid : Nat) (user : SILInstruction) (opIdx : Nat) (ex : Bool)
    (huses : usesOf S v = [(uid, user, opIdx)])
    (hproj : isProjectionKind user.kind = true) :
    canValueEscape S (fuel + 1) v ex = canValueEscape S fuel (.inst uid) ex := by
  rw [canValueEscape_succ, huses]
  cases hk : user.kind <;>
    simp [hk, isProjectionKind] at hproj ⊢ <;>
    simp [escapingUse, escapingUseAux, useCaptured, isProjectionKind, hk]

/-- Witness for C9: `arg 0 0` is used only by the `struct_element_addr`
with id 5, and both escape verdicts agree. -/
theorem canValueEscape_projection_transparent_witness :
    canValueEscape C9W 3 (.arg 0 0) true = canValueEscape C9W 2 (.inst 5) true :=
  canValueEscape_projection_transparent C9W 2 (.arg 0 0) 5
    { kind := .structElementAddr, operands := [some (.arg 0 0)], loc := 0 } 0 true
    (by decide) (by decide)

/-- Counterexample for C1: in `C1S`, `arg 0 0` is passed as the sole,
indirectly-conventioned argument of a direct, non-generic apply of the
known, non-empty function 1, and the corresponding formal parameter
`arg 1 0` escapes inside the callee; yet with `examineApply = true` the
source still answers non-escaping (the indirect-parameter test fires
before the drill-down), so the result does not equal the recursive
judgment on the formal parameter. -/
theorem canValueEscape_examineApply_ignores_indirect :
    canValueEscape C1S 5 (.arg 0 0) true = false ∧
    canValueEscape C1S 5 (.arg 1 0) false = true ∧
    (usesOf C1S (.arg 0 0)).length = 1 ∧
    funcBodyIsEmpty C1S 1 = false := by
  exact ⟨by decide, by decide, by decide, by decide⟩

/-- C1 (amended): a value whose only use is an indirectly-conventioned
argument operand of a direct apply (known, non-generic, non-empty callee)
is judged non-escaping with `examineApply = false` — and with
`examineApply = true` as well, because the indirect-parameter test
precedes the drill-down: `operandEscapesApply` is consulted only for
arguments that are not passed indirectly. -/
theorem canValueEscape_indirectArg_nonescaping (S : SILModule) (fuel : Nat) (v : ValueRef)
    (uid : Nat) (user : SILInstruction) (opIdx : Nat) (ex : Bool)
    (hs poly : Bool) (params : List Bool) (tr : Bool) (f : Nat)
    (huses : usesOf S v = [(uid, user, opIdx)])
    (hkind : user.kind = .applyInst hs poly params tr)
    (hop : opIdx ≠ 0)
    (hindirect : params.getD (opIdx - 1) false = true)
    (hs0 : hs = false) (hpoly : poly = false)
    (hcallee : directCallee S user = some f)
    (hbody : funcBodyIsEmpty S f = false) :
    canValueEscape S (fuel + 1) v ex = false := by
  rw [canValueEscape_succ, huses]
  rw [List.getD_eq_getElem?_getD] at hindirect
  simp [escapingUse, escapingUseAux, useCaptured, isProjectionKind, hkind, hop, hindirect]

/-- Witness for C1 (amended) at the concrete state `C1W`. -/
theorem canValueEscape_indirectArg_nonescaping_witness :
    canValueEscape C1W 6 (.arg 0 0) true = false :=
  canValueEscape_indirectArg_nonescaping C1W 5 (.arg 0 0) 11
    { kind := .applyInst false false [true] false,
      operands := [some (.inst 10), some (.arg 0 0)], loc := 0 } 1 true
    false false [true] false 1
    (by decide) rfl (by decide) (by decide) rfl rfl (by decide) (by decide)

/-- Calls whose internals cannot be inspected: generic substitutions, a
polymorphic callee type, an unresolved (non-`function_ref`) callee, or a
callee with no known body make `operandEscapesApply` bail out as escaping
before any recursion. -/
theorem operandEscapesApplyAux_opaque (S : SILModule) (recEscape : ValueRef → Bool → Bool)
    (user : SILInstruction) (opIdx : Nat)
    (hs poly : Bool) (params : List Bool) (tr : Bool)
    (hkind : user.kind = .applyInst hs poly params tr)
    (hbailout : hs = true ∨ poly = true ∨ directCallee S user = none ∨
      ∃ f, directCallee S user = some f ∧ funcBodyIsEmpty S f = true) :
    operandEscapesApplyAux S recEscape user opIdx = true := by
  unfold operandEscapesApplyAux
  rw [hkind]
  rcases hbailout with h | h | h | ⟨f, hf, hempty⟩
  · simp [h]
  · simp [h]
  · cases hhs : hs <;> cases hpoly : poly <;> simp [h]
  · cases hhs : hs <;> cases hpoly : poly <;> simp [hf, hempty]

/-- Counterexample for C2: in `C2S`, `arg 0 0`'s only use is an
indirectly-conventioned argument of an apply with generic substitutions;
the claim demands a conservative escaping verdict, but the source answers
non-escaping for both values of `examineApply`, because the
indirect-parameter test continues before the generic-call bail-out is
ever consulted. -/
theorem canValueEscape_genericCall_indirectArg_not_conservative :
    canValueEscape C2S 5 (.arg 0 0) true = false ∧
    canValueEscape C2S 5 (.arg 0 0) false = false := by
  exact ⟨by decide, by decide⟩

/-- C2 (amended): for a value whose only use is a directly-conventioned
(non-indirect) argument operand of an apply with generic substitutions, a
polymorphic callee type, an unresolved callee, or a bodiless callee, the
value is conservatively judged escaping, for both values of
`examineApply`. -/
theorem canValueEscape_opaqueCallee_directArg_escaping (S : SILModule) (fuel : Nat)
    (v : ValueRef) (uid : Nat) (user : SILInstruction) (opIdx : Nat) (ex : Bool)
    (hs poly : Bool) (params : List Bool) (tr : Bool)
    (huses : usesOf S v = [(uid, user, opIdx)])
    (hkind : user.kind = .applyInst hs poly params tr)
    (hop : opIdx ≠ 0)
    (hdirect : params.getD (opIdx - 1) false = false)
    (hbailout : hs = true ∨ poly = true ∨ directCallee S user = none ∨
      ∃ f, directCallee S user = some f ∧ funcBodyIsEmpty S f = true) :
    canValueEscape S (fuel + 1) v ex = true := by
  rw [canValueEscape_succ, huses]
  have hbail := operandEscapesApplyAux_opaque S
    (fun v2 ex2 => canValueEscape S fuel v2 ex2) user opIdx hs poly params tr hkind hbailout
  rw [List.getD_eq_getElem?_getD] at hdirect
  simp [escapingUse, escapingUseAux, useCaptured, isProjectionKind, hkind, hop, hdirect,
    operandEscapesApply, hbail]

/-- Witness for C2 (amended) at the concrete state `C2W`. -/
theorem canValueEscape_opaqueCallee_directArg_escaping_witness :
    canValueEscape C2W 6 (.arg 0 0) false = true :=
  canValueEscape_opaqueCallee_directArg_escaping C2W 5 (.arg 0 0) 11
    { kind := .applyInst true false [false] false,
      operands := [some (.inst 10), some (.arg 0 0)], loc := 0 } 1 false
    true false [false] false
    (by decide) rfl (by decide) (by decide) (Or.inl rfl)

set_option maxHeartbeats 1600000 in
/-- C7: for a call `c0 = apply(function_ref oldF, a, b)` (id 1) whose only
use is the later instruction `use(c0)` (id 2), after
`replaceWithSpecializedFunction(c0, newF)`: the fresh apply `c1` (id 11)
exists with the same location `lc`, the argument list `[a, b]` in original
order, an empty substitution list and the same transparency flag; the
fresh `function_ref` to `newF` exists; `use` now operates on `c1`; and
`c0` is gone from the function, its old callee ref with it. -/
theorem replaceWithSpecializedFunction_spec (af an bf bn : Nat) (hs poly : Bool)
    (params : List Bool) (tr : Bool) (l0 lc lu : Nat) (fnF fnOld fnNew : SILFunction) :
    lookupInst (replaceWithSpecializedFunction
        (C7state (.arg af an) (.arg bf bn) hs poly params tr l0 lc lu fnF fnOld fnNew) 1 2) 11 =
      some { kind := .applyInst false fnNew.polymorphic fnNew.params tr,
             operands := [some (.inst 10), some (.arg af an), some (.arg bf bn)], loc := lc } ∧
    lookupInst (replaceWithSpecializedFunction
        (C7state (.arg af an) (.arg bf bn) hs poly params tr l0 lc lu fnF fnOld fnNew) 1 2) 10 =
      some { kind := .functionRef 2, operands := [], loc := lc } ∧
    lookupInst (replaceWithSpecializedFunction
        (C7state (.arg af an) (.arg bf bn) hs poly params tr l0 lc lu fnF fnOld fnNew) 1 2) 2 =
      some { kind := .other true, operands := [some (.inst 11)], loc := lu } ∧
    lookupInst (replaceWithSpecializedFunction
        (C7state (.arg af an) (.arg bf bn) hs poly params tr l0 lc lu fnF fnOld fnNew) 1 2) 1 =
      none := by
  exact ⟨rfl, rfl, rfl, rfl⟩

theorem findEntry_mem {l : List (Nat × Nat × SILInstruction)} {j : Nat}
    {p : Nat × SILInstruction} (h : findEntry l j = some p) : (j, p.1, p.2) ∈ l := by
  induction l with
  | nil => simp [findEntry] at h
  | cons e rest ih =>
    rw [findEntry] at h
    by_cases he : e.1 = j
    · rw [if_pos he] at h
      injection h with h
      subst h
      subst he
      exact List.mem_cons_self _ _
    · rw [if_neg he] at h
      exact List.mem_cons_of_mem _ (ih h)

theorem mem_idsIn_of_mem {l : List (Nat × Nat × SILInstruction)} {j f : Nat}
    {i : SILInstruction} (h : (j, f, i) ∈ l) : j ∈ idsIn l := by
  simp only [idsIn, List.mem_map]
  exact ⟨(j, f, i), h, rfl⟩

theorem mem_idsIn_iff {l : List (Nat × Nat × SILInstruction)} {j : Nat} :
    j ∈ idsIn l ↔ ∃ f i, (j, f, i) ∈ l := by
  simp only [idsIn, List.mem_map]
  constructor
  · rintro ⟨⟨a, b, c⟩, hm, rfl⟩
    exact ⟨b, c, hm⟩
  · rintro ⟨f, i, hm⟩
    exact ⟨(j, f, i), hm, rfl⟩

theorem findEntry_eq_none_iff {l : List (Nat × Nat × SILInstruction)} {j : Nat} :
    findEntry l j = none ↔ j ∉ idsIn l := by
  induction l with
  | nil => simp [findEntry, idsIn]
  | cons e rest ih =>
    rw [findEntry]
    by_cases he : e.1 = j
    · subst he
      simp [idsIn]
    · rw [if_neg he, ih]
      simp only [idsIn, List.map_cons, List.mem_cons]
      constructor
      · intro h hc
        rcases hc with hc | hc
        · exact he hc.symm
        · exact h hc
      · intro h hc
        exact h (Or.inr hc)

theorem findEntry_eq_some_of_mem_nodup {l : List (Nat × Nat × SILInstruction)} {j f : Nat}
    {i : SILInstruction} (hnd : (idsIn l).Nodup) (hmem : (j, f, i) ∈ l) :
    findEntry l j = some (f, i) := by
  induction l with
  | nil => simp at hmem
  | cons e rest ih =>
    simp only [idsIn, List.map_cons, List.nodup_cons] at hnd
    rcases List.mem_cons.mp hmem with he | he
    · subst he
      simp [findEntry]
    · rw [findEntry, if_neg ?_]
      · exact ih hnd.2 he
      · intro hc
        exact hnd.1 (hc ▸ mem_idsIn_of_mem he)

theorem mem_removeEntry {l : List (Nat × Nat × SILInstruction)} {i : Nat}
    {e : Nat × Nat × SILInstruction} (h : e ∈ removeEntry l i) : e ∈ l ∧ e.1 ≠ i := by
  induction l with
  | nil => simp [removeEntry] at h
  | cons x rest ih =>
    rw [removeEntry] at h
    by_cases hx : x.1 = i
    · rw [if_pos hx] at h
      exact ⟨List.mem_cons_of_mem _ (ih h).1, (ih h).2⟩
    · rw [if_neg hx] at h
      rcases List.mem_cons.mp h with he | he
      · subst he
        exact ⟨List.mem_cons_self _ _, hx⟩
      · exact ⟨List.mem_cons_of_mem _ (ih he).1, (ih he).2⟩

theorem removeEntry_mem_of {l : List (Nat × Nat × SILInstruction)} {i : Nat}
    {e : Nat × Nat × SILInstruction} (h : e ∈ l) (hne : e.1 ≠ i) : e ∈ removeEntry l i := by
  induction l with
  | nil => simp at h
  | cons x rest ih =>
    rw [removeEntry]
    rcases List.mem_cons.mp h with he | he
    · subst he
      rw [if_neg hne]
      exact List.mem_cons_self _ _
    · by_cases hx : x.1 = i
      · rw [if_pos hx]
        exact ih he
      · rw [if_neg hx]
        exact List.mem_cons_of_mem _ (ih he)

theorem idsIn_removeEntry {l : List (Nat × Nat × SILInstruction)} {i j : Nat} :
    j ∈ idsIn (removeEntry l i) ↔ j ∈ idsIn l ∧ j ≠ i := by
  constructor
  · intro h
    rcases mem_idsIn_iff.mp h with ⟨f, ins, hm⟩
    rcases mem_removeEntry hm with ⟨hm2, hne⟩
    exact ⟨mem_idsIn_of_mem hm2, hne⟩
  · rintro ⟨h, hne⟩
    rcases mem_idsIn_iff.mp h with ⟨f, ins, hm⟩
    exact mem_idsIn_of_mem (removeEntry_mem_of hm hne)

theorem findEntry_removeEntry_self (l : List (Nat × Nat × SILInstruction)) (i : Nat) :
    findEntry (removeEntry l i) i = none := by
  rw [findEntry_eq_none_iff]
  intro h
  exact (idsIn_removeEntry.mp h).2 rfl

theorem findEntry_removeEntry_ne {l : List (Nat × Nat × SILInstruction)} {i j : Nat}
    (h : j ≠ i) : findEntry (removeEntry l i) j = findEntry l j := by
  induction l with
  | nil => simp [removeEntry]
  | cons x rest ih =>
    rw [removeEntry]
    by_cases hx : x.1 = i
    · rw [if_pos hx, ih]
      have hstep : findEntry (x :: rest) j = findEntry rest j := by
        rw [findEntry, if_neg (by rw [hx]; exact fun hc => h hc.symm)]
      rw [hstep]
    · rw [if_neg hx, findEntry, findEntry]
      by_cases hj : x.1 = j
      · rw [if_pos hj, if_pos hj]
      · rw [if_neg hj, if_neg hj, ih]

theorem length_removeEntry_le (l : List (Nat × Nat × SILInstruction)) (i : Nat) :
    (removeEntry l i).length ≤ l.length := by
  induction l with
  | nil => simp [removeEntry]
  | cons x rest ih =>
    rw [removeEntry]
    by_cases hx : x.1 = i
    · rw [if_pos hx]
      exact Nat.le_succ_of_le ih
    · rw [if_neg hx]
      simpa using ih

theorem length_removeEntry_lt {l : List (Nat × Nat × SILInstruction)} {i : Nat}
    (h : i ∈ idsIn l) : (removeEntry l i).length < l.length := by
  induction l with
  | nil => simp [idsIn] at h
  | cons x rest ih =>
    rw [removeEntry]
    by_cases hx : x.1 = i
    · rw [if_pos hx]
      exact Nat.lt_succ_of_le (length_removeEntry_le rest i)
    · rw [if_neg hx]
      simp only [idsIn, List.map_cons, List.mem_cons] at h
      rcases h with h | h
      · exact absurd h.symm hx
      · simpa using ih h

theorem nodup_idsIn_removeEntry {l : List (Nat × Nat × SILInstruction)} {i : Nat}
    (h : (idsIn l).Nodup) : (idsIn (removeEntry l i)).Nodup := by
  induction l with
  | nil => simp [removeEntry, idsIn]
  | cons x rest ih =>
    simp only [idsIn, List.map_cons, List.nodup_cons] at h
    rw [removeEntry]
    by_cases hx : x.1 = i
    · rw [if_pos hx]
      exact ih h.2
    · rw [if_neg hx]
      simp only [idsIn, List.map_cons, List.nodup_cons]
      refine ⟨fun hc => h.1 ?_, ih h.2⟩
      exact (idsIn_removeEntry.mp hc).1

theorem idsIn_setOpNone (l : List (Nat × Nat × SILInstruction)) (i k : Nat) :
    idsIn (setOpNone l i k) = idsIn l := by
  induction l with
  | nil => simp [setOpNone]
  | cons x rest ih =>
    rw [setOpNone]
    by_cases hx : x.1 = i
    · rw [if_pos hx]
      simp [idsIn]
    · rw [if_neg hx]
      simp only [idsIn, List.map_cons] at ih ⊢
      rw [ih]

theorem length_setOpNone (l : List (Nat × Nat × SILInstruction)) (i k : Nat) :
    (setOpNone l i k).length = l.length := by
  induction l with
  | nil => simp [setOpNone]
  | cons x rest ih =>
    rw [setOpNone]
    by_cases hx : x.1 = i
    · rw [if_pos hx]
      simp
    · rw [if_neg hx]
      simpa using ih

theorem findEntry_setOpNone_ne {l : List (Nat × Nat × SILInstruction)} {i k j : Nat}
    (h : j ≠ i) : findEntry (setOpNone l i k) j = findEntry l j := by
  induction l with
  | nil => simp [setOpNone]
  | cons x rest ih =>
    rw [setOpNone]
    by_cases hx : x.1 = i
    · rw [if_pos hx, findEntry, findEntry, if_neg (by simpa [hx] using fun hc => h hc.symm),
        if_neg (by rw [hx]; exact fun hc => h hc.symm)]
    · rw [if_neg hx, findEntry, findEntry]
      by_cases hj : x.1 = j
      · rw [if_pos hj, if_pos hj]
      · rw [if_neg hj, if_neg hj, ih]

theorem findEntry_setOpNone_self (l : List (Nat × Nat × SILInstruction)) (i k : Nat) :
    findEntry (setOpNone l i k) i =
      (findEntry l i).map
        (fun p => (p.1, { p.2 with operands := p.2.operands.set k none })) := by
  induction l with
  | nil => simp [setOpNone, findEntry]
  | cons x rest ih =>
    rw [setOpNone]
    by_cases hx : x.1 = i
    · rw [if_pos hx, findEntry, if_pos hx, findEntry, if_pos hx]
      rfl
    · rw [if_neg hx, findEntry, if_neg hx, findEntry, if_neg hx, ih]

theorem mem_setOpNone {l : List (Nat × Nat × SILInstruction)} {i k : Nat}
    {e : Nat × Nat × SILInstruction} (h : e ∈ setOpNone l i k) :
    e ∈ l ∨ ∃ f ins, (i, f, ins) ∈ l ∧
      e = (i, f, { ins with operands := ins.operands.set k none }) := by
  induction l with
  | nil => simp [setOpNone] at h
  | cons x rest ih =>
    rw [setOpNone] at h
    by_cases hx : x.1 = i
    · rw [if_pos hx] at h
      rcases List.mem_cons.mp h with he | he
      · right
        refine ⟨x.2.1, x.2.2, ?_, ?_⟩
        · rw [← hx]
          exact List.mem_cons_self _ _
        · rw [he, ← hx]
      · left
        exact List.mem_cons_of_mem _ he
    · rw [if_neg hx] at h
      rcases List.mem_cons.mp h with he | he
      · left
        rw [he]
        exact List.mem_cons_self _ _
      · rcases ih he with h2 | ⟨f, ins, hm, heq⟩
        · exact Or.inl (List.mem_cons_of_mem _ h2)
        · exact Or.inr ⟨f, ins, List.mem_cons_of_mem _ hm, heq⟩

theorem getD_some_mem {ops : List (Option ValueRef)} {k : Nat} {y : ValueRef}
    (h : ops.getD k none = some y) : some y ∈ ops := by
  rw [List.getD_eq_getElem?_getD] at h
  cases hk : ops[k]? with
  | none => rw [hk] at h; simp at h
  | some o =>
    rw [hk] at h
    simp only [Option.getD_some] at h
    subst h
    exact List.getElem?_mem hk

theorem mem_getD_some {ops : List (Option ValueRef)} {y : ValueRef}
    (h : some y ∈ ops) : ∃ k, ops.getD k none = some y := by
  rcases List.mem_iff_getElem?.mp h with ⟨n, hn⟩
  exact ⟨n, by rw [List.getD_eq_getElem?_getD, hn]; rfl⟩

theorem getD_set_none_preserved {ops : List (Option ValueRef)} {k m : Nat} {y z : ValueRef}
    (hm : ops.getD m none = some y) (hk : ops.getD k none = some z) (hyz : z ≠ y) :
    (ops.set k none).getD m none = some y := by
  have hmk : k ≠ m := by
    intro he
    subst he
    rw [hm] at hk
    injection hk with h2
    exact hyz h2.symm
  rw [List.getD_eq_getElem?_getD, List.getElem?_set_ne hmk, ← List.getD_eq_getElem?_getD]
  exact hm

theorem instUsesAux_eq_nil_iff {uid : Nat} {ins : SILInstruction} {v : ValueRef}
    {ops : List (Option ValueRef)} :
    ∀ k, instUsesAux uid ins v ops k = [] ↔ ∀ op ∈ ops, op ≠ some v := by
  induction ops with
  | nil => intro k; simp [instUsesAux]
  | cons op rest ih =>
    intro k
    rw [instUsesAux]
    by_cases hop : op = some v
    · rw [if_pos hop]
      simp [hop]
    · rw [if_neg hop, ih]
      constructor
      · intro h op2 hm
        rcases List.mem_cons.mp hm with he | he
        · rw [he]; exact hop
        · exact h op2 he
      · intro h op2 hm
        exact h op2 (List.mem_cons_of_mem _ hm)

theorem usesIn_eq_nil_iff {v : ValueRef} {l : List (Nat × Nat × SILInstruction)} :
    usesIn v l = [] ↔ ∀ e ∈ l, ∀ op ∈ e.2.2.operands, op ≠ some v := by
  induction l with
  | nil => simp [usesIn]
  | cons e rest ih =>
    rw [usesIn, List.append_eq_nil, ih, instUsesAux_eq_nil_iff]
    constructor
    · rintro ⟨h1, h2⟩ e2 hm
      rcases List.mem_cons.mp hm with he | he
      · rw [he]; exact h1
      · exact h2 e2 he
    · intro h
      exact ⟨h e (List.mem_cons_self _ _), fun e2 hm => h e2 (List.mem_cons_of_mem _ hm)⟩

theorem mem_instUsesAux {uid : Nat} {ins : SILInstruction} {v : ValueRef}
    {ops : List (Option ValueRef)} {x : Nat × SILInstruction × Nat} :
    ∀ k, x ∈ instUsesAux uid ins v ops k → x.1 = uid ∧ x.2.1 = ins := by
  induction ops with
  | nil => intro k h; simp [instUsesAux] at h
  | cons op rest ih =>
    intro k h
    rw [instUsesAux] at h
    by_cases hop : op = some v
    · rw [if_pos hop] at h
      rcases List.mem_cons.mp h with he | he
      · rw [he]
        exact ⟨rfl, rfl⟩
      · exact ih _ he
    · rw [if_neg hop] at h
      exact ih _ h

theorem usesIn_head {v : ValueRef} {l : List (Nat × Nat × SILInstruction)}
    {x : Nat × SILInstruction × Nat} {rest : List (Nat × SILInstruction × Nat)}
    (h : usesIn v l = x :: rest) :
    ∃ f, (x.1, f, x.2.1) ∈ l ∧ some v ∈ x.2.1.operands := by
  induction l generalizing rest with
  | nil => simp [usesIn] at h
  | cons e l2 ih =>
    rw [usesIn] at h
    cases ha : instUsesAux e.1 e.2.2 v e.2.2.operands 0 with
    | nil =>
      rw [ha, List.nil_append] at h
      rcases ih h with ⟨f, hm, hop⟩
      exact ⟨f, List.mem_cons_of_mem _ hm, hop⟩
    | cons y ys =>
      rw [ha] at h
      simp only [List.cons_append, List.cons.injEq] at h
      have hy : y ∈ instUsesAux e.1 e.2.2 v e.2.2.operands 0 := by
        rw [ha]; exact List.mem_cons_self _ _
      rcases mem_instUsesAux 0 hy with ⟨h1, h2⟩
      have hne : instUsesAux e.1 e.2.2 v e.2.2.operands 0 ≠ [] := by
        rw [ha]; exact List.cons_ne_nil _ _
      have hop : some v ∈ e.2.2.operands := by
        by_contra hc
        exact hne ((instUsesAux_eq_nil_iff 0).mpr
          (fun op hm => fun he => hc (he ▸ hm)))
      refine ⟨e.2.1, ?_, ?_⟩
      · rw [← h.1, h1, h2]
        exact List.mem_cons_self _ _
      · rw [← h.1, h2]
        exact hop

theorem usesIn_nil_removeEntry {v : ValueRef} {l : List (Nat × Nat × SILInstruction)}
    {i : Nat} (h : usesIn v l = []) : usesIn v (removeEntry l i) = [] := by
  rw [usesIn_eq_nil_iff] at h ⊢
  intro e hm
  exact h e (mem_removeEntry hm).1

theorem usesIn_nil_setOpNone {v : ValueRef} {l : List (Nat × Nat × SILInstruction)}
    {i k : Nat} (h : usesIn v l = []) : usesIn v (setOpNone l i k) = [] := by
  rw [usesIn_eq_nil_iff] at h ⊢
  intro e hm op hop
  rcases mem_setOpNone hm with he | ⟨f, ins, hmem, heq⟩
  · exact h e he op hop
  · subst heq
    simp only at hop
    rcases List.mem_or_eq_of_mem_set hop with h2 | h2
    · exact h (i, f, ins) hmem op h2
    · subst h2
      simp

theorem usesOf_nil_of_triviallyDead {S : SILModule} {id : Nat}
    (h : isInstructionTriviallyDead S id = true) : usesOf S (.inst id) = [] := by
  unfold isInstructionTriviallyDead at h
  cases hl : lookupInst S id with
  | none => rw [hl] at h; simp at h
  | some i =>
    rw [hl] at h
    by_cases he : (usesOf S (.inst id)).isEmpty
    · exact List.isEmpty_iff.mp he
    · exfalso
      have h2 : (if ¬(usesOf S (ValueRef.inst id)).isEmpty = true then false
          else if isTermKind i.kind = true then false
          else
            match applyBuiltinCheck S i with
            | some b => b
            | none =>
              if condFailZeroCheck S i = true then true
              else if isMarkUninitializedKind i.kind = true then false
              else !mayHaveSideEffects i.kind) = true := h
      rw [if_pos (by simpa using he)] at h2
      simp at h2

theorem nodup_len_le {l1 l2 : List Nat} (h : l1.Nodup) (hs : l1 ⊆ l2) :
    l1.length ≤ l2.length := by
  calc l1.length = l1.toFinset.card := (List.toFinset_card_of_nodup h).symm
    _ ≤ l2.toFinset.card := by
        refine Finset.card_le_card ?_
        intro x hx
        rw [List.mem_toFinset] at hx ⊢
        exact hs hx
    _ ≤ l2.length := List.toFinset_card_le l2

theorem length_idsIn (l : List (Nat × Nat × SILInstruction)) : (idsIn l).length = l.length :=
  List.length_map l _

theorem foldlInv {α β : Type} (P : β → Prop) (f : β → α → β) :
    ∀ (xs : List α) (b : β), P b → (∀ b2 a, a ∈ xs → P b2 → P (f b2 a)) →
      P (xs.foldl f b) := by
  intro xs
  induction xs with
  | nil => intro b hb _; simpa using hb
  | cons x xs ih =>
    intro b hb hstep
    rw [List.foldl_cons]
    exact ih _ (hstep b x (List.mem_cons_self _ _) hb)
      (fun b2 a ha hb2 => hstep b2 a (List.mem_cons_of_mem _ ha) hb2)

theorem usesIn_nil_no_hasOp {l : List (Nat × Nat × SILInstruction)} {t : Nat}
    (h : usesIn (ValueRef.inst t) l = []) : ∀ j, ¬ HasOp l j t := by
  rintro j ⟨f, i, m, hfe, hget⟩
  exact usesIn_eq_nil_iff.mp h (j, f, i) (findEntry_mem hfe) (some (.inst t))
    (getD_some_mem hget) rfl

theorem noDangling_prop {S : SILModule} (h : noDangling S = true) : NoDanglingP S.insts := by
  rintro j k ⟨f, i, m, hfe, hget⟩
  have hmem := findEntry_mem hfe
  rw [noDangling, List.all_eq_true] at h
  have h2 := h (j, f, i) hmem
  rw [List.all_eq_true] at h2
  have h3 := h2 (some (.inst k)) (getD_some_mem hget)
  simpa using h3

theorem rankOk_prop {S : SILModule} {rank : Nat → Nat} (h : rankOk S rank = true) :
    RankOkP S.insts rank := by
  rintro j k ⟨f, i, m, hfe, hget⟩
  have hmem := findEntry_mem hfe
  rw [rankOk, List.all_eq_true] at h
  have h2 := h (j, f, i) hmem
  rw [List.all_eq_true] at h2
  have h3 := h2 (some (.inst k)) (getD_some_mem hget)
  simpa using h3

theorem rankBound_prop {S : SILModule} {rank : Nat → Nat} {N : Nat}
    (h : rankBound S rank N = true) : ∀ j ∈ idsIn S.insts, rank j < N := by
  intro j hj
  rcases mem_idsIn_iff.mp hj with ⟨f, i, hm⟩
  rw [rankBound, List.all_eq_true] at h
  have h2 := h (j, f, i) hm
  simpa using h2

theorem getD_of_set_none {ops : List (Option ValueRef)} {k m : Nat} {y : ValueRef}
    (h : (ops.set k none).getD m none = some y) : ops.getD m none = some y := by
  rw [List.getD_eq_getElem?_getD] at h ⊢
  rw [List.getElem?_set] at h
  by_cases hkm : k = m
  · rw [if_pos hkm] at h
    by_cases hlen : k < ops.length
    · rw [if_pos hlen] at h
      simp at h
    · rw [if_neg hlen] at h
      simp at h
  · rw [if_neg hkm] at h
    exact h

theorem hasOp_setOpNone {l : List (Nat × Nat × SILInstruction)} {i k j t : Nat}
    (h : HasOp (setOpNone l i k) j t) : HasOp l j t := by
  rcases h with ⟨f, ins, m, hfe, hget⟩
  by_cases hj : j = i
  · subst hj
    rw [findEntry_setOpNone_self] at hfe
    cases horig : findEntry l j with
    | none => rw [horig] at hfe; simp at hfe
    | some p =>
      rw [horig] at hfe
      simp only [Option.map_some] at hfe
      injection hfe with hfe2
      have hins : ins =
          { kind := p.2.kind, operands := p.2.operands.set k none, loc := p.2.loc } :=
        (congrArg Prod.snd hfe2).symm
      rw [hins] at hget
      exact ⟨p.1, p.2, m, by rw [horig], getD_of_set_none hget⟩
  · rw [findEntry_setOpNone_ne hj] at hfe
    exact ⟨f, ins, m, hfe, hget⟩

theorem hasOp_removeEntry {l : List (Nat × Nat × SILInstruction)} {i j t : Nat}
    (h : HasOp (removeEntry l i) j t) : HasOp l j t ∧ j ≠ i := by
  rcases h with ⟨f, ins, m, hfe, hget⟩
  have hj : j ≠ i := by
    intro he
    subst he
    rw [findEntry_removeEntry_self] at hfe
    exact Option.noConfusion hfe
  rw [findEntry_removeEntry_ne hj] at hfe
  exact ⟨⟨f, ins, m, hfe, hget⟩, hj⟩

theorem noDanglingP_setOpNone {l : List (Nat × Nat × SILInstruction)} {i k : Nat}
    (h : NoDanglingP l) : NoDanglingP (setOpNone l i k) := by
  intro j t he
  rw [show idsIn (setOpNone l i k) = idsIn l from idsIn_setOpNone l i k]
  exact h j t (hasOp_setOpNone he)

theorem noDanglingP_removeEntry {l : List (Nat × Nat × SILInstruction)} {i : Nat}
    (h : NoDanglingP l) (hu : usesIn (ValueRef.inst i) l = []) :
    NoDanglingP (removeEntry l i) := by
  intro j t he
  rcases hasOp_removeEntry he with ⟨hop, hji⟩
  have ht : t ∈ idsIn l := h j t hop
  have hti : t ≠ i := by
    intro heq
    subst heq
    exact usesIn_nil_no_hasOp hu j hop
  exact idsIn_removeEntry.mpr ⟨ht, hti⟩

theorem rankOkP_of_entries {l1 l2 : List (Nat × Nat × SILInstruction)} {rank : Nat → Nat}
    (h1 : ∀ j, j ∈ idsIn l2 → findEntry l2 j = findEntry l1 j) (h : RankOkP l1 rank) :
    RankOkP l2 rank := by
  rintro j t ⟨f, i, m, hfe, hget⟩
  have hj : j ∈ idsIn l2 := mem_idsIn_of_mem (findEntry_mem hfe)
  rw [h1 j hj] at hfe
  exact h j t ⟨f, i, m, hfe, hget⟩

theorem rankOkP_setOpNone {l : List (Nat × Nat × SILInstruction)} {i k : Nat}
    {rank : Nat → Nat} (h : RankOkP l rank) : RankOkP (setOpNone l i k) rank :=
  fun j t he => h j t (hasOp_setOpNone he)

theorem rankOkP_removeEntry {l : List (Nat × Nat × SILInstruction)} {i : Nat}
    {rank : Nat → Nat} (h : RankOkP l rank) : RankOkP (removeEntry l i) rank :=
  fun j t he => h j t (hasOp_removeEntry he).1

theorem roundInv_dropOp (S0 : SILModule) (dead : List Nat) (b2 : SILModule × List Nat)
    (iid k : Nat) (hiid : iid ∈ dead) (h : RoundInv S0 dead b2) :
    RoundInv S0 dead (dropOp b2.1 iid k, b2.2) := by
  obtain ⟨i1, i2, i3, i4, i5, i6⟩ := h
  refine ⟨?_, ?_, ?_, ?_, i5, ?_⟩
  · intro j hj
    have hne : j ≠ iid := fun he => hj (he ▸ hiid)
    rw [show (dropOp b2.1 iid k).insts = setOpNone b2.1.insts iid k from rfl,
      findEntry_setOpNone_ne hne]
    exact i1 j hj
  · rw [show (dropOp b2.1 iid k).insts = setOpNone b2.1.insts iid k from rfl,
      idsIn_setOpNone]
    exact i2
  · intro hnd
    exact noDanglingP_setOpNone (i3 hnd)
  · intro v hv
    exact usesIn_nil_setOpNone (i4 v hv)
  · intro x hx
    obtain ⟨hu, hedge⟩ := i6 x hx
    exact ⟨usesIn_nil_setOpNone hu, hedge⟩

theorem roundInv_append (S0 : SILModule) (dead : List Nat) (b2 : SILModule × List Nat)
    (iid k opI f0 : Nat) (ins0 : SILInstruction) (hiid : iid ∈ dead)
    (h : RoundInv S0 dead b2) (hnotin : opI ∉ b2.2)
    (hdead_entry : findEntry S0.insts iid = some (f0, ins0))
    (hslot : ins0.operands.getD k none = some (.inst opI))
    (htd : isInstructionTriviallyDead (dropOp b2.1 iid k) opI = true) :
    RoundInv S0 dead (dropOp b2.1 iid k, b2.2 ++ [opI]) := by
  have hbase := roundInv_dropOp S0 dead b2 iid k hiid h
  obtain ⟨i1, i2, i3, i4, i5, i6⟩ := hbase
  refine ⟨i1, i2, i3, i4, ?_, ?_⟩
  · rw [List.nodup_append]
    refine ⟨i5, List.nodup_singleton _, ?_⟩
    intro a ha hb
    rw [List.mem_singleton] at hb
    subst hb
    exact hnotin ha
  · intro x hx
    rcases List.mem_append.mp hx with hx2 | hx2
    · exact i6 x hx2
    · rw [List.mem_singleton] at hx2
      subst hx2
      refine ⟨usesOf_nil_of_triviallyDead htd, iid, f0, ins0, k, hiid, hdead_entry, hslot⟩

theorem dropOpsOf_inv (S0 : SILModule) (dead : List Nat) (acc : SILModule × List Nat)
    (iid : Nat) (hiid : iid ∈ dead) (hacc : RoundInv S0 dead acc)
    (hent : findEntry acc.1.insts iid = findEntry S0.insts iid) :
    RoundInv S0 dead (dropOpsOf dead acc iid) ∧
    (∀ j, j ≠ iid →
      findEntry (dropOpsOf dead acc iid).1.insts j = findEntry acc.1.insts j) := by
  unfold dropOpsOf
  cases hfe : findEntry acc.1.insts iid with
  | none => exact ⟨hacc, fun _ _ => rfl⟩
  | some p =>
    obtain ⟨f0, ins0⟩ := p
    have hS0 : findEntry S0.insts iid = some (f0, ins0) := by rw [← hent, hfe]
    refine foldlInv (fun a => RoundInv S0 dead a ∧
        (∀ j, j ≠ iid → findEntry a.1.insts j = findEntry acc.1.insts j)) _
      (List.range ins0.operands.length) acc ⟨hacc, fun _ _ => rfl⟩ ?_
    intro b2 k _ hP
    obtain ⟨hinv, hloc⟩ := hP
    have hlocstep : ∀ j, j ≠ iid →
        findEntry (dropOp b2.1 iid k).insts j = findEntry acc.1.insts j := by
      intro j hj
      rw [show (dropOp b2.1 iid k).insts = setOpNone b2.1.insts iid k from rfl,
        findEntry_setOpNone_ne hj]
      exact hloc j hj
    cases hv : ins0.operands.getD k none with
    | none =>
      rw [severStep]
      exact ⟨hinv, hloc⟩
    | some v =>
      cases v with
      | arg f n =>
        rw [severStep]
        exact ⟨roundInv_dropOp S0 dead b2 iid k hiid hinv, hlocstep⟩
      | inst opI =>
        rw [severStep]
        by_cases hd : opI ∈ dead
        · rw [if_pos hd]
          exact ⟨roundInv_dropOp S0 dead b2 iid k hiid hinv, hlocstep⟩
        · rw [if_neg hd]
          by_cases htd : isInstructionTriviallyDead (dropOp b2.1 iid k) opI = true
          · rw [if_pos htd]
            by_cases hin : opI ∈ b2.2
            · rw [if_pos hin]
              exact ⟨roundInv_dropOp S0 dead b2 iid k hiid hinv, hlocstep⟩
            · rw [if_neg hin]
              exact ⟨roundInv_append S0 dead b2 iid k opI f0 ins0 hiid hinv hin hS0 hv htd,
                hlocstep⟩
          · rw [if_neg htd]
            exact ⟨roundInv_dropOp S0 dead b2 iid k hiid hinv, hlocstep⟩

theorem roundFold_inv (S0 : SILModule) (dead : List Nat) :
    ∀ (ds : List Nat) (acc : SILModule × List Nat),
      (∀ j ∈ ds, j ∈ dead) → ds.Nodup →
      (∀ j ∈ ds, findEntry acc.1.insts j = findEntry S0.insts j) →
      RoundInv S0 dead acc →
      RoundInv S0 dead (ds.foldl (dropOpsOf dead) acc) := by
  intro ds
  induction ds with
  | nil => intro acc _ _ _ h; simpa using h
  | cons iid ds ih =>
    intro acc hsub hnd hent hacc
    rw [List.foldl_cons]
    have hstep := dropOpsOf_inv S0 dead acc iid (hsub iid (List.mem_cons_self _ _)) hacc
      (hent iid (List.mem_cons_self _ _))
    rw [List.nodup_cons] at hnd
    refine ih (dropOpsOf dead acc iid) (fun j hj => hsub j (List.mem_cons_of_mem _ hj))
      hnd.2 ?_ hstep.1
    intro j hj
    have hne : j ≠ iid := fun he => hnd.1 (he ▸ hj)
    rw [hstep.2 j hne]
    exact hent j (List.mem_cons_of_mem _ hj)

theorem processRound_inv (S0 : SILModule) (dead : List Nat) (hnd : dead.Nodup) :
    RoundInv S0 dead (processRound S0 dead) := by
  unfold processRound
  refine roundFold_inv S0 dead dead (S0, []) (fun j hj => hj) hnd (fun j _ => rfl) ?_
  refine ⟨fun j _ => rfl, rfl, fun h => h, fun v hv => hv, List.nodup_nil, ?_⟩
  intro x hx
  simp at hx

theorem eraseAll_facts : ∀ (dead : List Nat) (S1 : SILModule),
    NoDanglingP S1.insts → (∀ d ∈ dead, usesIn (ValueRef.inst d) S1.insts = []) →
    (∀ j, j ∉ dead → findEntry (eraseAll S1 dead).insts j = findEntry S1.insts j) ∧
    (∀ j, j ∈ idsIn (eraseAll S1 dead).insts ↔ j ∈ idsIn S1.insts ∧ j ∉ dead) ∧
    ((idsIn S1.insts).Nodup → (idsIn (eraseAll S1 dead).insts).Nodup) ∧
    NoDanglingP (eraseAll S1 dead).insts ∧
    (∀ v, usesIn v S1.insts = [] → usesIn v (eraseAll S1 dead).insts = []) := by
  intro dead
  induction dead with
  | nil =>
    intro S1 hnd hu
    refine ⟨fun j _ => rfl, fun j => ?_, fun h => h, hnd, fun v hv => hv⟩
    simp [eraseAll]
  | cons d ds ih =>
    intro S1 hnd hu
    have hstep : eraseAll S1 (d :: ds) = eraseAll (eraseInst S1 d) ds := by
      rw [eraseAll, List.foldl_cons]
      rfl
    have hndS : NoDanglingP (eraseInst S1 d).insts :=
      noDanglingP_removeEntry hnd (hu d (List.mem_cons_self _ _))
    have huS : ∀ x ∈ ds, usesIn (ValueRef.inst x) (eraseInst S1 d).insts = [] :=
      fun x hx => usesIn_nil_removeEntry (hu x (List.mem_cons_of_mem _ hx))
    obtain ⟨e1, e2, e3, e4, e5⟩ := ih (eraseInst S1 d) hndS huS
    rw [hstep]
    refine ⟨?_, ?_, ?_, e4, ?_⟩
    · intro j hj
      have hjd : j ≠ d := fun he => hj (he ▸ List.mem_cons_self _ _)
      have hjds : j ∉ ds := fun he => hj (List.mem_cons_of_mem _ he)
      rw [e1 j hjds]
      exact findEntry_removeEntry_ne hjd
    · intro j
      rw [e2 j]
      constructor
      · rintro ⟨hin, hds⟩
        rcases idsIn_removeEntry.mp hin with ⟨hin2, hjd⟩
        refine ⟨hin2, ?_⟩
        intro hc
        rcases List.mem_cons.mp hc with hc | hc
        · exact hjd hc
        · exact hds hc
      · rintro ⟨hin, hds⟩
        refine ⟨idsIn_removeEntry.mpr ⟨hin, fun he => hds (he ▸ List.mem_cons_self _ _)⟩, ?_⟩
        exact fun he => hds (List.mem_cons_of_mem _ he)
    · intro h
      exact e3 (nodup_idsIn_removeEntry h)
    · intro v hv
      exact e5 v (usesIn_nil_removeEntry hv)

theorem deleteRounds_facts : ∀ (n : Nat) (S : SILModule) (dead : List Nat)
    (rank : Nat → Nat) (B : Nat),
    (idsIn S.insts).Nodup → NoDanglingP S.insts →
    (∀ d ∈ dead, usesIn (ValueRef.inst d) S.insts = []) →
    dead.Nodup →
    RankOkP S.insts rank → (∀ d ∈ dead, rank d ≤ B) →
    (∀ j, j ∈ idsIn (deleteRounds n S dead).insts →
      findEntry (deleteRounds n S dead).insts j = findEntry S.insts j) ∧
    (∀ j, j ∈ idsIn (deleteRounds n S dead).insts → j ∈ idsIn S.insts) ∧
    (idsIn (deleteRounds n S dead).insts).Nodup ∧
    NoDanglingP (deleteRounds n S dead).insts ∧
    (∀ v, usesIn v S.insts = [] → usesIn v (deleteRounds n S dead).insts = []) ∧
    (∀ j, j ∈ idsIn S.insts → j ∉ idsIn (deleteRounds n S dead).insts → rank j ≤ B) := by
  intro n
  induction n with
  | zero =>
    intro S dead rank B hnodup hnd hu hdn hrank hB
    rw [deleteRounds]
    exact ⟨fun j _ => rfl, fun j hj => hj, hnodup, hnd, fun v hv => hv,
      fun j hj hnj => absurd hj hnj⟩
  | succ n ih =>
    intro S dead rank B hnodup hnd hu hdn hrank hB
    cases dead with
    | nil =>
      rw [deleteRounds]
      exact ⟨fun j _ => rfl, fun j hj => hj, hnodup, hnd, fun v hv => hv,
        fun j hj hnj => absurd hj hnj⟩
    | cons d0 ds0 =>
      have hstep : deleteRounds (n + 1) S (d0 :: ds0) =
          deleteRounds n (eraseAll (processRound S (d0 :: ds0)).1 (d0 :: ds0))
            (processRound S (d0 :: ds0)).2 := by
        rw [deleteRounds]
        exact fun h => List.noConfusion h
      rw [hstep]
      set dead := d0 :: ds0 with hdead
      set p := processRound S dead with hp
      obtain ⟨i1, i2, i3, i4, i5, i6⟩ := processRound_inv S dead hdn
      have nd1 : NoDanglingP p.1.insts := i3 hnd
      have uf1 : ∀ x ∈ dead, usesIn (ValueRef.inst x) p.1.insts = [] :=
        fun x hx => i4 _ (hu x hx)
      obtain ⟨e1, e2, e3, e4, e5⟩ := eraseAll_facts dead p.1 nd1 uf1
      set S2 := eraseAll p.1 dead with hS2
      have hsurv2 : ∀ j, j ∈ idsIn S2.insts → findEntry S2.insts j = findEntry S.insts j := by
        intro j hj
        rcases (e2 j).mp hj with ⟨hin1, hjd⟩
        rw [e1 j hjd]
        exact i1 j hjd
      have hids2 : ∀ j, j ∈ idsIn S2.insts → j ∈ idsIn S.insts := by
        intro j hj
        rcases (e2 j).mp hj with ⟨hin1, _⟩
        rw [i2] at hin1
        exact hin1
      have hnodup2 : (idsIn S2.insts).Nodup := e3 (i2 ▸ hnodup)
      have hnd2 : NoDanglingP S2.insts := e4
      have hrank2 : RankOkP S2.insts rank := rankOkP_of_entries hsurv2 hrank
      have hufnext : ∀ x ∈ p.2, usesIn (ValueRef.inst x) S2.insts = [] :=
        fun x hx => e5 _ (i6 x hx).1
      have hranknext : ∀ x ∈ p.2, rank x ≤ B := by
        intro x hx
        obtain ⟨_, j, f, ins, k, hjdead, hent, hslot⟩ := i6 x hx
        have hedge : HasOp S.insts j x := ⟨f, ins, k, hent, hslot⟩
        exact le_trans (le_of_lt (hrank j x hedge)) (hB j hjdead)
      obtain ⟨d1, d2, d3, d4, d5, d6⟩ :=
        ih S2 p.2 rank B hnodup2 hnd2 hufnext i5 hrank2 hranknext
      refine ⟨?_, ?_, d3, d4, ?_, ?_⟩
      · intro j hj
        rw [d1 j hj]
        exact hsurv2 j (d2 j hj)
      · intro j hj
        exact hids2 j (d2 j hj)
      · intro v hv
        exact d5 v (e5 v (i4 v hv))
      · intro j hj hnj
        by_cases hj2 : j ∈ idsIn S2.insts
        · exact d6 j hj2 hnj
        · have hj1 : j ∈ idsIn p.1.insts := by rw [i2]; exact hj
          by_cases hjd : j ∈ dead
          · exact hB j hjd
          · exact absurd ((e2 j).mpr ⟨hj1, hjd⟩) hj2

theorem recursivelyDelete_facts (S : SILModule) (ia : List Nat) (rank : Nat → Nat) (B : Nat)
    (hnodup : (idsIn S.insts).Nodup) (hia : ia.Nodup)
    (hnd : NoDanglingP S.insts) (hrank : RankOkP S.insts rank)
    (hB : ∀ d ∈ ia, rank d ≤ B) :
    (∀ j, j ∈ idsIn (recursivelyDeleteTriviallyDeadInstructions S ia false).1.insts →
      findEntry (recursivelyDeleteTriviallyDeadInstructions S ia false).1.insts j =
        findEntry S.insts j) ∧
    (∀ j, j ∈ idsIn (recursivelyDeleteTriviallyDeadInstructions S ia false).1.insts →
      j ∈ idsIn S.insts) ∧
    (idsIn (recursivelyDeleteTriviallyDeadInstructions S ia false).1.insts).Nodup ∧
    NoDanglingP (recursivelyDeleteTriviallyDeadInstructions S ia false).1.insts ∧
    (∀ v, usesIn v S.insts = [] →
      usesIn v (recursivelyDeleteTriviallyDeadInstructions S ia false).1.insts = []) ∧
    (∀ j, j ∈ idsIn S.insts →
      j ∉ idsIn (recursivelyDeleteTriviallyDeadInstructions S ia false).1.insts →
      rank j ≤ B) := by
  have hres : (recursivelyDeleteTriviallyDeadInstructions S ia false).1 =
      deleteRounds (S.insts.length + 2) S
        (ia.filter (fun i => false || isInstructionTriviallyDead S i)) := rfl
  rw [hres]
  refine deleteRounds_facts (S.insts.length + 2) S _ rank B hnodup hnd ?_ ?_ hrank ?_
  · intro d hd
    rcases List.mem_filter.mp hd with ⟨_, hp⟩
    simp only [Bool.false_or] at hp
    exact usesOf_nil_of_triviallyDead hp
  · exact List.Nodup.filter _ hia
  · intro d hd
    exact hB d (List.mem_filter.mp hd).1

theorem cleanOperandCore_facts (t : Nat) (S : SILModule) (uid k : Nat)
    (slot : Option ValueRef) (rank : Nat → Nat) (f0 : Nat) (u0 : SILInstruction)
    (hnodup : (idsIn S.insts).Nodup) (hnd : NoDanglingP S.insts)
    (hrank : RankOkP S.insts rank)
    (hfe : findEntry S.insts uid = some (f0, u0))
    (hslot : u0.operands.getD k none = slot) :
    (∀ j, j ≠ uid → j ∈ idsIn (cleanOperandCore t S uid k slot).insts →
      findEntry (cleanOperandCore t S uid k slot).insts j = findEntry S.insts j) ∧
    (∀ j, j ∈ idsIn (cleanOperandCore t S uid k slot).insts → j ∈ idsIn S.insts) ∧
    (idsIn (cleanOperandCore t S uid k slot).insts).Nodup ∧
    NoDanglingP (cleanOperandCore t S uid k slot).insts ∧
    RankOkP (cleanOperandCore t S uid k slot).insts rank ∧
    (∀ v, usesIn v S.insts = [] → usesIn v (cleanOperandCore t S uid k slot).insts = []) ∧
    (∃ u2, findEntry (cleanOperandCore t S uid k slot).insts uid = some (f0, u2) ∧
      (∀ m, u0.operands.getD m none = some (.inst t) →
        u2.operands.getD m none = some (.inst t))) := by
  cases slot with
  | none =>
    rw [cleanOperandCore]
    · exact ⟨fun j _ _ => rfl, fun j hj => hj, hnodup, hnd, hrank, fun v hv => hv,
        u0, hfe, fun m hm => hm⟩
    · intro cid h
      exact Option.noConfusion h
  | some v =>
    cases v with
    | arg fa na =>
      rw [cleanOperandCore]
      · exact ⟨fun j _ _ => rfl, fun j hj => hj, hnodup, hnd, hrank, fun v hv => hv,
          u0, hfe, fun m hm => hm⟩
      · intro cid h
        simp at h
    | inst opI =>
      rw [cleanOperandCore]
      by_cases hop : opI = t
      · rw [if_pos hop]
        exact ⟨fun j _ _ => rfl, fun j hj => hj, hnodup, hnd, hrank, fun v hv => hv,
          u0, hfe, fun m hm => hm⟩
      · rw [if_neg hop]
        have hdropins : (dropOp S uid k).insts = setOpNone S.insts uid k := rfl
        have hnodup1 : (idsIn (dropOp S uid k).insts).Nodup := by
          rw [hdropins, idsIn_setOpNone]
          exact hnodup
        have hnd1 : NoDanglingP (dropOp S uid k).insts := by
          rw [hdropins]
          exact noDanglingP_setOpNone hnd
        have hrank1 : RankOkP (dropOp S uid k).insts rank := by
          rw [hdropins]
          exact rankOkP_setOpNone hrank
        have hedge : HasOp S.insts uid opI := ⟨f0, u0, k, hfe, hslot⟩
        have hranklt : rank opI < rank uid := hrank uid opI hedge
        obtain ⟨r1, r2, r3, r4, r5, r6⟩ :=
          recursivelyDelete_facts (dropOp S uid k) [opI] rank (rank opI)
            hnodup1 (List.nodup_singleton _) hnd1 hrank1
            (by intro d hd; rw [List.mem_singleton] at hd; subst hd; exact le_refl _)
        have hself : findEntry (dropOp S uid k).insts uid =
            (findEntry S.insts uid).map
              (fun p => (p.1, { p.2 with operands := p.2.operands.set k none })) := by
          rw [hdropins]
          exact findEntry_setOpNone_self _ _ _
        refine ⟨?_, ?_, r3, r4, ?_, ?_, ?_⟩
        · intro j hj hjin
          rw [r1 j hjin, hdropins, findEntry_setOpNone_ne hj]
        · intro j hj
          have h2 := r2 j hj
          rw [hdropins, idsIn_setOpNone] at h2
          exact h2
        · exact rankOkP_of_entries r1 hrank1
        · intro v hv
          refine r5 v ?_
          rw [hdropins]
          exact usesIn_nil_setOpNone hv
        · have huidS : uid ∈ idsIn S.insts := mem_idsIn_of_mem (findEntry_mem hfe)
          have huid1 : uid ∈ idsIn (dropOp S uid k).insts := by
            rw [hdropins, idsIn_setOpNone]
            exact huidS
          have huidR : uid ∈
              idsIn (recursivelyDeleteTriviallyDeadInstructions
                (dropOp S uid k) [opI] false).1.insts := by
            by_contra hc
            exact absurd (r6 uid huid1 hc) (not_le_of_lt hranklt)
          have hentuid := r1 uid huidR
          rw [hself, hfe] at hentuid
          simp only [Option.map_some] at hentuid
          refine ⟨{ u0 with operands := u0.operands.set k none }, hentuid, ?_⟩
          intro m hm
          have hne2 : ValueRef.inst opI ≠ ValueRef.inst t := by
            intro he
            injection he with he2
            exact hop he2
          exact getD_set_none_preserved hm hslot hne2

theorem cleanOperand_facts (t : Nat) (S : SILModule) (uid k : Nat) (rank : Nat → Nat)
    (f0 : Nat) (u0 : SILInstruction)
    (hnodup : (idsIn S.insts).Nodup) (hnd : NoDanglingP S.insts)
    (hrank : RankOkP S.insts rank)
    (hfe : findEntry S.insts uid = some (f0, u0)) :
    (∀ j, j ≠ uid → j ∈ idsIn (cleanOperand t S uid k).insts →
      findEntry (cleanOperand t S uid k).insts j = findEntry S.insts j) ∧
    (∀ j, j ∈ idsIn (cleanOperand t S uid k).insts → j ∈ idsIn S.insts) ∧
    (idsIn (cleanOperand t S uid k).insts).Nodup ∧
    NoDanglingP (cleanOperand t S uid k).insts ∧
    RankOkP (cleanOperand t S uid k).insts rank ∧
    (∀ v, usesIn v S.insts = [] → usesIn v (cleanOperand t S uid k).insts = []) ∧
    (∃ u2, findEntry (cleanOperand t S uid k).insts uid = some (f0, u2) ∧
      (∀ m, u0.operands.getD m none = some (.inst t) →
        u2.operands.getD m none = some (.inst t))) := by
  have heq : cleanOperand t S uid k = cleanOperandCore t S uid k (u0.operands.getD k none) := by
    unfold cleanOperand
    rw [hfe]
  rw [heq]
  exact cleanOperandCore_facts t S uid k (u0.operands.getD k none) rank f0 u0
    hnodup hnd hrank hfe rfl

theorem processOps_facts (t : Nat) (S : SILModule) (uid : Nat) (rank : Nat → Nat)
    (f0 : Nat) (u0 : SILInstruction)
    (hnodup : (idsIn S.insts).Nodup) (hnd : NoDanglingP S.insts)
    (hrank : RankOkP S.insts rank)
    (hfe : findEntry S.insts uid = some (f0, u0)) :
    (∀ j, j ≠ uid → j ∈ idsIn (processOps t S uid).insts →
      findEntry (processOps t S uid).insts j = findEntry S.insts j) ∧
    (∀ j, j ∈ idsIn (processOps t S uid).insts → j ∈ idsIn S.insts) ∧
    (idsIn (processOps t S uid).insts).Nodup ∧
    NoDanglingP (processOps t S uid).insts ∧
    RankOkP (processOps t S uid).insts rank ∧
    (∀ v, usesIn v S.insts = [] → usesIn v (processOps t S uid).insts = []) ∧
    (∃ u2, findEntry (processOps t S uid).insts uid = some (f0, u2) ∧
      (∀ m, u0.operands.getD m none = some (.inst t) →
        u2.operands.getD m none = some (.inst t))) := by
  have heq : processOps t S uid =
      (List.range u0.operands.length).foldl (fun s k => cleanOperand t s uid k) S := by
    unfold processOps
    rw [hfe]
  rw [heq]
  refine foldlInv
    (fun s =>
      (∀ j, j ≠ uid → j ∈ idsIn s.insts → findEntry s.insts j = findEntry S.insts j) ∧
      (∀ j, j ∈ idsIn s.insts → j ∈ idsIn S.insts) ∧
      (idsIn s.insts).Nodup ∧
      NoDanglingP s.insts ∧
      RankOkP s.insts rank ∧
      (∀ v, usesIn v S.insts = [] → usesIn v s.insts = []) ∧
      (∃ u2, findEntry s.insts uid = some (f0, u2) ∧
        (∀ m, u0.operands.getD m none = some (.inst t) →
          u2.operands.getD m none = some (.inst t))))
    _ (List.range u0.operands.length) S
    ⟨fun j _ _ => rfl, fun j hj => hj, hnodup, hnd, hrank, fun v hv => hv,
      u0, hfe, fun m hm => hm⟩ ?_
  intro s2 k _ hInv
  obtain ⟨p1, p2, p3, p4, p5, p6, u2, hfe2, hpres2⟩ := hInv
  obtain ⟨c1, c2, c3, c4, c5, c6, u3, hfe3, hpres3⟩ :=
    cleanOperand_facts t s2 uid k rank f0 u2 p3 p4 p5 hfe2
  refine ⟨?_, ?_, c3, c4, c5, ?_, u3, hfe3, ?_⟩
  · intro j hj hjin
    rw [c1 j hj hjin]
    exact p1 j hj (c2 j hjin)
  · intro j hj
    exact p2 j (c2 j hj)
  · intro v hv
    exact c6 v (p6 v hv)
  · intro m hm
    exact hpres3 m (hpres2 m hm)

theorem eraseUses_bundle : ∀ (fuel : Nat) (S : SILModule) (t : Nat) (rank : Nat → Nat)
    (N : Nat),
    (idsIn S.insts).Nodup → NoDanglingP S.insts → RankOkP S.insts rank →
    (∀ j ∈ idsIn S.insts, rank j < N) → t ∈ idsIn S.insts →
    S.insts.length + (N - rank t) < fuel →
    usesIn (ValueRef.inst t) (eraseUsesOfInstruction fuel S t).insts = [] ∧
    (∀ j, j ∈ idsIn (eraseUsesOfInstruction fuel S t).insts →
      findEntry (eraseUsesOfInstruction fuel S t).insts j = findEntry S.insts j) ∧
    (∀ j, j ∈ idsIn (eraseUsesOfInstruction fuel S t).insts → j ∈ idsIn S.insts) ∧
    (idsIn (eraseUsesOfInstruction fuel S t).insts).Nodup ∧
    NoDanglingP (eraseUsesOfInstruction fuel S t).insts ∧
    t ∈ idsIn (eraseUsesOfInstruction fuel S t).insts := by
  intro fuel
  induction fuel with
  | zero =>
    intro S t rank N hnodup hnd hrank hbound ht hfuel
    exact absurd hfuel (Nat.not_lt_zero _)
  | succ n ih =>
    intro S t rank N hnodup hnd hrank hbound ht hfuel
    cases hu : usesOf S (ValueRef.inst t) with
    | nil =>
      have heq : eraseUsesOfInstruction (n + 1) S t = S := by
        rw [eraseUsesOfInstruction, hu]
      rw [heq]
      exact ⟨hu, fun j _ => rfl, fun j hj => hj, hnodup, hnd, ht⟩
    | cons u rest =>
      obtain ⟨uid, uinst, uk⟩ := u
      have heq : eraseUsesOfInstruction (n + 1) S t =
          eraseUsesOfInstruction n
            (eraseInst (processOps t (eraseUsesOfInstruction n S uid) uid) uid) t := by
        rw [eraseUsesOfInstruction, hu]
      obtain ⟨fu, hmem, hopmem⟩ :=
        usesIn_head (show usesIn (ValueRef.inst t) S.insts = (uid, uinst, uk) :: rest from hu)
      have hfeu : findEntry S.insts uid = some (fu, uinst) :=
        findEntry_eq_some_of_mem_nodup hnodup hmem
      obtain ⟨m0, hm0⟩ := mem_getD_some hopmem
      have hedgetu : HasOp S.insts uid t := ⟨fu, uinst, m0, hfeu, hm0⟩
      have hrt_lt_ruid : rank t < rank uid := hrank uid t hedgetu
      have huidin : uid ∈ idsIn S.insts := mem_idsIn_of_mem hmem
      have hruid_lt_N : rank uid < N := hbound uid huidin
      have hrt_lt_N : rank t < N := hbound t ht
      have hfuel1 : S.insts.length + (N - rank uid) < n := by
        have h1 : N - rank uid < N - rank t := Nat.sub_lt_sub_left hrt_lt_N hrt_lt_ruid
        omega
      obtain ⟨a1, a2, a3, a4, a5, a6⟩ := ih S uid rank N hnodup hnd hrank hbound huidin hfuel1
      have hrank1 : RankOkP (eraseUsesOfInstruction n S uid).insts rank :=
        rankOkP_of_entries a2 hrank
      have hfeu1 : findEntry (eraseUsesOfInstruction n S uid).insts uid = some (fu, uinst) := by
        rw [a2 uid a6]
        exact hfeu
      obtain ⟨b1, b2, b3, b4, b5, b6, u2, hfeu2, hpres2⟩ :=
        processOps_facts t (eraseUsesOfInstruction n S uid) uid rank fu uinst a4 a5 hrank1 hfeu1
      have hm2 : u2.operands.getD m0 none = some (ValueRef.inst t) := hpres2 m0 hm0
      have huid2 : uid ∈ idsIn (processOps t (eraseUsesOfInstruction n S uid) uid).insts :=
        mem_idsIn_of_mem (findEntry_mem hfeu2)
      have ht2 : t ∈ idsIn (processOps t (eraseUsesOfInstruction n S uid) uid).insts :=
        b4 uid t ⟨fu, u2, m0, hfeu2, hm2⟩
      have hufuid2 :
          usesIn (ValueRef.inst uid) (processOps t (eraseUsesOfInstruction n S uid) uid).insts =
            [] := b6 _ a1
      have htuid : t ≠ uid := fun he => absurd (he ▸ hrt_lt_ruid) (lt_irrefl _)
      have hnd3 : NoDanglingP
          (eraseInst (processOps t (eraseUsesOfInstruction n S uid) uid) uid).insts :=
        noDanglingP_removeEntry b4 hufuid2
      have hnodup3 : (idsIn
          (eraseInst (processOps t (eraseUsesOfInstruction n S uid) uid) uid).insts).Nodup :=
        nodup_idsIn_removeEntry b3
      have ht3 : t ∈ idsIn
          (eraseInst (processOps t (eraseUsesOfInstruction n S uid) uid) uid).insts :=
        idsIn_removeEntry.mpr ⟨ht2, htuid⟩
      have hrank3 : RankOkP
          (eraseInst (processOps t (eraseUsesOfInstruction n S uid) uid) uid).insts rank :=
        rankOkP_removeEntry b5
      have hbound3 : ∀ j ∈ idsIn
          (eraseInst (processOps t (eraseUsesOfInstruction n S uid) uid) uid).insts,
          rank j < N := by
        intro j hj
        rcases idsIn_removeEntry.mp hj with ⟨hj2, _⟩
        exact hbound j (a3 j (b2 j hj2))
      have hlen1 : (eraseUsesOfInstruction n S uid).insts.length ≤ S.insts.length := by
        rw [← length_idsIn, ← length_idsIn (S.insts)]
        exact nodup_len_le a4 (fun x hx => a3 x hx)
      have hlen2 : (processOps t (eraseUsesOfInstruction n S uid) uid).insts.length ≤
          (eraseUsesOfInstruction n S uid).insts.length := by
        rw [← length_idsIn, ← length_idsIn ((eraseUsesOfInstruction n S uid).insts)]
        exact nodup_len_le b3 (fun x hx => b2 x hx)
      have hlen3 : (eraseInst (processOps t (eraseUsesOfInstruction n S uid) uid) uid).insts.length
          < (processOps t (eraseUsesOfInstruction n S uid) uid).insts.length :=
        length_removeEntry_lt huid2
      have hfuel3 :
          (eraseInst (processOps t (eraseUsesOfInstruction n S uid) uid) uid).insts.length +
            (N - rank t) < n := by
        omega
      obtain ⟨c1, c2, c3, c4, c5, c6⟩ :=
        ih (eraseInst (processOps t (eraseUsesOfInstruction n S uid) uid) uid) t rank N
          hnodup3 hnd3 hrank3 hbound3 ht3 hfuel3
      rw [heq]
      refine ⟨c1, ?_, ?_, c4, c5, c6⟩
      · intro j hj
        rw [c2 j hj]
        have hj3 := c3 j hj
        rcases idsIn_removeEntry.mp hj3 with ⟨hj2, hjuid⟩
        rw [show findEntry
            (eraseInst (processOps t (eraseUsesOfInstruction n S uid) uid) uid).insts j =
            findEntry (processOps t (eraseUsesOfInstruction n S uid) uid).insts j from
          findEntry_removeEntry_ne hjuid]
        rw [b1 j hjuid hj2]
        exact a2 j (b2 j hj2)
      · intro j hj
        have hj3 := c3 j hj
        rcases idsIn_removeEntry.mp hj3 with ⟨hj2, _⟩
        exact a3 j (b2 j hj2)

/-- Counterexample for C5: in `C5S`, instruction 1 is the only user of
instruction 0; after `eraseUsesOfInstruction(0)` the user is gone but
instruction 0 itself is still in its block — the routine erases the uses
of the instruction, not the instruction itself. -/
theorem eraseUsesOfInstruction_keeps_target :
    0 ∈ idsIn (eraseUsesOfInstruction 5 C5S 0).insts ∧
    idsIn (eraseUsesOfInstruction 5 C5S 0).insts = [0] := by
  exact ⟨by decide, by decide⟩

/-- C5 (amended): after `eraseUsesOfInstruction(I)` on a well-formed
module (no dangling operands, acyclic def-use edges certified by `rank`
bounded by `N`, distinct ids) with enough recursion fuel, every
instruction that transitively used `I` has been removed from the module;
`I` itself is not erased by the routine (the caller erases it
separately). -/
theorem eraseUsesOfInstruction_removes_transitive_users (S : SILModule) (t : Nat)
    (rank : Nat → Nat) (N fuel : Nat)
    (hnodup : (idsIn S.insts).Nodup)
    (hnd : noDangling S = true) (hrank : rankOk S rank = true)
    (hbound : rankBound S rank N = true)
    (ht : t ∈ idsIn S.insts) (hfuel : S.insts.length + N < fuel) :
    (∀ j, TransUses S t j → j ∉ idsIn (eraseUsesOfInstruction fuel S t).insts) ∧
    t ∈ idsIn (eraseUsesOfInstruction fuel S t).insts := by
  have hfuel2 : S.insts.length + (N - rank t) < fuel := by
    have hle : N - rank t ≤ N := Nat.sub_le _ _
    omega
  obtain ⟨g1, g2, g3, g4, g5, g6⟩ :=
    eraseUses_bundle fuel S t rank N hnodup (noDangling_prop hnd) (rankOk_prop hrank)
      (rankBound_prop hbound) ht hfuel2
  refine ⟨?_, g6⟩
  intro j htrans
  induction htrans with
  | direct j2 f i hmem hop =>
    intro hj
    have hfeS : findEntry S.insts j2 = some (f, i) :=
      findEntry_eq_some_of_mem_nodup hnodup hmem
    have hfeR : findEntry (eraseUsesOfInstruction fuel S t).insts j2 = some (f, i) := by
      rw [g2 j2 hj]
      exact hfeS
    exact usesIn_eq_nil_iff.mp g1 (j2, f, i) (findEntry_mem hfeR) (some (.inst t)) hop rfl
  | step k j2 f i htrans2 hmem hop ihk =>
    intro hj
    have hfeS : findEntry S.insts j2 = some (f, i) :=
      findEntry_eq_some_of_mem_nodup hnodup hmem
    have hfeR : findEntry (eraseUsesOfInstruction fuel S t).insts j2 = some (f, i) := by
      rw [g2 j2 hj]
      exact hfeS
    obtain ⟨mk, hmk⟩ := mem_getD_some hop
    exact ihk (g5 j2 k ⟨f, i, mk, hfeR, hmk⟩)

/-- Witness for C5 (amended) on the two-level chain `C5W` with the
identity ranking. -/
theorem eraseUsesOfInstruction_removes_transitive_users_witness :
    (∀ j, TransUses C5W 0 j → j ∉ idsIn (eraseUsesOfInstruction 7 C5W 0).insts) ∧
    0 ∈ idsIn (eraseUsesOfInstruction 7 C5W 0).insts :=
  eraseUsesOfInstruction_removes_transitive_users C5W 0 (fun j => j) 3 7
    (by decide) (by decide) (by decide) (by decide) (by decide) (by decide)
